import Mathlib

/-!
# Concurrent hash table (`chash`): the store, the key function and the scheduler

A shallow embedding of `src/chash/hash_table.c` and `src/chash/chash.c`.

* The singly linked list behind `head` is a `List hashRecord`, first node first; the
  `next` pointers are the list structure itself.
* `uint32_t` values are natural numbers; where the C arithmetic wraps (the key function)
  every operation is followed by `% 2 ^ 32`.
* A C string is the list of its bytes (unsigned values); a zero byte, or the end of the
  list, is the terminating NUL.
* `malloc` is outside the repository: the functions that call it take its outcome
  (`true`: a node was returned, `false`: `NULL`) as an argument.
* An out-parameter `uint32_t *out` is an `Option Nat`: `none` is a `NULL` pointer,
  `some v` a pointer to a cell that holds `v`; the function returns the cell afterwards.
* The arrays of the scheduler are lists of integers, read and written at `int` indices.
* One worker thread is one step of a step relation: leaving the wait loop, the store
  operation and the completion update, for a worker that has not run yet.
* Locks and log lines are not part of the model; of the console output only what a
  worker prints for its command.
* The parser works on the bytes of a line; `strsep`, `strcasecmp` and `atoi` of the C
  library are modelled after their documentation.
-/

set_option linter.unusedVariables false

namespace CHash

/-! ## Data model (`chash.h`) -/

/-- Node of the list, `hashRecord` in `chash.h`, without its `next` pointer. -/
structure hashRecord where
  hash : Nat
  name : List Nat
  salary : Nat
deriving DecidableEq, Repr

/-- The enum `command_type` of `chash.h`. -/
inductive command_type where
  | CMD_INSERT
  | CMD_DELETE
  | CMD_UPDATE
  | CMD_SEARCH
  | CMD_PRINT
  | CMD_INVALID
deriving DecidableEq, Repr

/-- The struct `command_t` of `chash.h`. -/
structure command_t where
  type : command_type
  name : List Nat
  salary : Nat
  priority : Int
  seq : Int
  original_index : Int
deriving DecidableEq, Repr

/-! ## The key function (`chash.c`, lines 57-69) -/

/-- Truncation of a C `uint32_t` expression. -/
def u32 (n : Nat) : Nat := n % 2 ^ 32

/-- Body of the `while (*key)` loop: the three statements applied to `hash` for the
byte `c`, read through the cast `(unsigned char)`. -/
def jenkins_step (hash c : Nat) : Nat :=
  let h1 := u32 (hash + c % 256)
  let h2 := u32 (h1 + u32 (h1 <<< 10))
  h2 ^^^ (h2 >>> 6)

/-- The loop `while (*key) { ... }`: it stops at the first zero byte. -/
def jenkins_loop : List Nat → Nat → Nat
  | [], hash => hash
  | c :: key, hash => if c = 0 then hash else jenkins_loop key (jenkins_step hash c)

/-- The three statements after the loop. -/
def jenkins_final (hash : Nat) : Nat :=
  let h1 := u32 (hash + u32 (hash <<< 3))
  let h2 := h1 ^^^ (h1 >>> 11)
  u32 (h2 + u32 (h2 <<< 15))

/-- The function `jenkins_one_at_a_time_hash` of `chash.c`. -/
def jenkins_one_at_a_time_hash (key : List Nat) : Nat :=
  jenkins_final (jenkins_loop key 0)

/-- The one-at-a-time reference as the specification words it: for each byte
`h := h + b`, `h := h + (h << 10)`, `h := h XOR (h >> 6)`, every step modulo `2 ^ 32`. -/
def reference_mix (h b : Nat) : Nat :=
  let a := (h + b) % 2 ^ 32
  let s := (a + a * 2 ^ 10) % 2 ^ 32
  Nat.xor s (s / 2 ^ 6) % 2 ^ 32

/-- The reference finalisation: `h := h + (h << 3)`, `h := h XOR (h >> 11)`,
`h := h + (h << 15)`, every step modulo `2 ^ 32`. -/
def reference_finish (h : Nat) : Nat :=
  let a := (h + h * 2 ^ 3) % 2 ^ 32
  let x := Nat.xor a (a / 2 ^ 11) % 2 ^ 32
  (x + x * 2 ^ 15) % 2 ^ 32

/-- The Jenkins one-at-a-time reference of the specification. -/
def reference_hash (name : List Nat) : Nat :=
  reference_finish (name.foldl reference_mix 0)

/-! ## The store (`hash_table.c`) -/

/-- The function `ht_init`: `head = NULL`. -/
def ht_init : List hashRecord := []

/-- The copy `strncpy(dst, src, n); dst[n] = 0` read back as a C string: at most `n`
bytes of `src`, up to its first zero byte. -/
def strncpy : List Nat → Nat → List Nat
  | [], _ => []
  | _ :: _, 0 => []
  | c :: src, n + 1 => if c = 0 then [] else c :: strncpy src n

/-- The scan `while (cur && cur->hash < hash) { prev = cur; cur = cur->next; }` from
`head`. The first component is the part of the list walked over (its last node is `prev`,
empty when `prev == NULL`), the second the list from `cur` on (empty when
`cur == NULL`). -/
def find_prev_by_hash (hash : Nat) : List hashRecord → List hashRecord × List hashRecord
  | [] => ([], [])
  | cur :: next =>
    if cur.hash < hash then
      ((cur :: (find_prev_by_hash hash next).1), (find_prev_by_hash hash next).2)
    else ([], cur :: next)

/-- The function `ht_insert`. `node` is the outcome of `malloc`. Returns the return code
and the list afterwards. -/
def ht_insert (name : List Nat) (salary hash_out : Nat) (thread_prio : Int)
    (node : Bool) (head : List hashRecord) : Int × List hashRecord :=
  let prev := (find_prev_by_hash hash_out head).1
  let cur := (find_prev_by_hash hash_out head).2
  let dup := match cur with
    | [] => false
    | c :: _ => decide (c.hash = hash_out)
  if dup then (-1, head)
  else if !node then (-1, head)
  else
    let n : hashRecord := { hash := hash_out, name := strncpy name 49, salary := salary }
    match prev with
    | [] => (0, n :: head)
    | _ :: _ => (0, prev ++ n :: cur)

/-- The function `ht_delete`; its scan (lines 87-92) is the loop of `find_prev_by_hash`
written out. Returns the return code, the cell behind `out_deleted_salary` and the list
afterwards. -/
def ht_delete (name : List Nat) (hash_out : Nat) (thread_prio : Int)
    (out_deleted_salary : Option Nat) (head : List hashRecord) :
    Int × Option Nat × List hashRecord :=
  let prev := (find_prev_by_hash hash_out head).1
  match (find_prev_by_hash hash_out head).2 with
  | [] => (-1, out_deleted_salary, head)
  | cur :: next =>
    if cur.hash ≠ hash_out then (-1, out_deleted_salary, head)
    else
      let out := out_deleted_salary.map (fun _ => cur.salary)
      match prev with
      | [] => (0, out, next)
      | _ :: _ => (0, out, prev ++ next)

/-- The function `ht_update`; its scan (lines 115-116) is the loop of
`find_prev_by_hash` without `prev`. Returns the return code, the cell behind
`out_old_salary` and the list afterwards. -/
def ht_update (name : List Nat) (new_salary hash_out : Nat) (thread_prio : Int)
    (out_old_salary : Option Nat) (head : List hashRecord) :
    Int × Option Nat × List hashRecord :=
  match (find_prev_by_hash hash_out head).2 with
  | [] => (-1, out_old_salary, head)
  | cur :: next =>
    if cur.hash ≠ hash_out then (-1, out_old_salary, head)
    else
      (0, out_old_salary.map (fun _ => cur.salary),
        (find_prev_by_hash hash_out head).1 ++ { cur with salary := new_salary } :: next)

/-- The function `ht_search`; its scan (lines 136-137) is the loop of
`find_prev_by_hash` without `prev`. `res` is the outcome of `malloc`. Returns the copy
(`none` is `NULL`) and the list afterwards. -/
def ht_search (name : List Nat) (hash_out : Nat) (thread_prio : Int)
    (res : Bool) (head : List hashRecord) : Option hashRecord × List hashRecord :=
  match (find_prev_by_hash hash_out head).2 with
  | [] => (none, head)
  | cur :: _ =>
    if cur.hash = hash_out then (if res then some cur else none, head)
    else (none, head)

/-- The function `ht_print_all`: the rows `hash,name,salary` in the order of the
traversal `for (cur = head; cur; cur = cur->next)`. -/
def ht_print_all (thread_prio : Int) : List hashRecord → List (Nat × List Nat × Nat)
  | [] => []
  | cur :: next => (cur.hash, cur.name, cur.salary) :: ht_print_all thread_prio next

/-- Strictly ascending by `hash`. -/
def StrictAsc (s : List hashRecord) : Prop := s.Pairwise (fun a b => a.hash < b.hash)

instance (s : List hashRecord) : Decidable (StrictAsc s) := by
  unfold StrictAsc; infer_instance

/-- Call of one of the three mutating operations, with everything it receives. -/
inductive store_call where
  | insert (name : List Nat) (salary hash_out : Nat) (thread_prio : Int) (node : Bool)
  | delete (name : List Nat) (hash_out : Nat) (thread_prio : Int) (out : Option Nat)
  | update (name : List Nat) (new_salary hash_out : Nat) (thread_prio : Int)
      (out : Option Nat)

/-- The list after one call. -/
def store_call.run (head : List hashRecord) : store_call → List hashRecord
  | .insert name salary hash_out thread_prio node =>
    (ht_insert name salary hash_out thread_prio node head).2
  | .delete name hash_out thread_prio out => (ht_delete name hash_out thread_prio out head).2.2
  | .update name new_salary hash_out thread_prio out =>
    (ht_update name new_salary hash_out thread_prio out head).2.2

/-- The list after a sequence of calls, the first call first. -/
def run_calls (head : List hashRecord) (calls : List store_call) : List hashRecord :=
  calls.foldl store_call.run head

/-! ## The scheduler (`chash.c`)

The arrays `next_seq_to_run`, `count_for_prio` and `seq_alloc` are lists of
`max_priority + 1` integers. `main` and `worker` index them with a command's priority;
for a priority in `0 .. max_priority` the access is inside the array, which is the case
for every command list with non-negative priorities. An access outside the array is
undefined in C; there the model reads 0 and drops the write past the end, and takes slot
0 for a negative index. -/

/-- The read `a[i]`. -/
def rd (a : List Int) (i : Int) : Int := a.getD i.toNat 0

/-- The write `a[i] = v`. -/
def wr (a : List Int) (i : Int) (v : Int) : List Int := a.set i.toNat v

/-- The call `calloc(n, sizeof(int))`: `n` zeros. -/
def calloc (n : Int) : List Int := List.replicate n.toNat 0

/-- The scheduling state of `chash.c`: the globals `active_priority`, `next_seq_to_run`,
`count_for_prio` and `max_priority`. -/
structure sched_state where
  active_priority : Int
  next_seq_to_run : List Int
  count_for_prio : List Int
  max_priority : Int
deriving DecidableEq, Repr

/-- Lines 285-287 of `main`: the largest priority, starting from -1, and 0 when that is
negative. -/
def main_max_priority (tmp_commands : List command_t) : Int :=
  let m := tmp_commands.foldl (fun m c => if c.priority > m then c.priority else m) (-1)
  if m < 0 then 0 else m

/-- Lines 295-298 of `main`: `count_for_prio[p]++` for every command. -/
def main_count (tmp_commands : List command_t) (count_for_prio : List Int) : List Int :=
  tmp_commands.foldl (fun cnt c => wr cnt c.priority (rd cnt c.priority + 1)) count_for_prio

/-- Lines 303-306 of `main`: `tmp_commands[i].seq = seq_alloc[p]++` in file order. -/
def main_assign_seq : List command_t → List Int → List command_t
  | [], _ => []
  | c :: rest, seq_alloc =>
    { c with seq := rd seq_alloc c.priority } ::
      main_assign_seq rest (wr seq_alloc c.priority (rd seq_alloc c.priority + 1))

/-- The loop `for (; p <= max_priority; ++p) if (count_for_prio[p] > 0) break;` started
at `p`; the value of `p` when the loop is left. The first argument bounds the number of
iterations; `max_priority + 1 - p` of them always suffice. -/
def scan_prio (count_for_prio : List Int) (max_priority : Int) : Nat → Int → Int
  | 0, p => p
  | fuel + 1, p =>
    if p ≤ max_priority then
      if rd count_for_prio p > 0 then p
      else scan_prio count_for_prio max_priority fuel (p + 1)
    else p

/-- Lines 317-320 of `main`: the smallest priority that has commands, 0 when there is
none. -/
def main_start_p (count_for_prio : List Int) (max_priority : Int) : Int :=
  let p := scan_prio count_for_prio max_priority (max_priority + 1).toNat 0
  let start_p := if p ≤ max_priority then p else -1
  if start_p = -1 then 0 else start_p

/-- The commands array that `main` hands to the workers (lines 301-313). -/
def main_commands (tmp_commands : List command_t) : List command_t :=
  main_assign_seq tmp_commands (calloc (main_max_priority tmp_commands + 1))

/-- The scheduling state `main` has built when it spawns the workers (lines 285-320). -/
def main_sched (tmp_commands : List command_t) : sched_state :=
  let max_priority := main_max_priority tmp_commands
  let count_for_prio := main_count tmp_commands (calloc (max_priority + 1))
  { active_priority := main_start_p count_for_prio max_priority
    next_seq_to_run := calloc (max_priority + 1)
    count_for_prio := count_for_prio
    max_priority := max_priority }

/-- The condition of the wait loop of `worker` (line 149): `true` while the worker has
to wait. Its negation is the wait predicate
`active_priority == cmd.priority && next_seq_to_run[cmd.priority] == cmd.seq`. -/
def worker_must_wait (s : sched_state) (cmd : command_t) : Bool :=
  decide (s.active_priority ≠ cmd.priority) ||
    decide (rd s.next_seq_to_run cmd.priority ≠ cmd.seq)

/-- What `worker` prints on the console for its command. -/
inductive worker_output where
  | inserted (h : Nat) (name : List Nat) (salary : Nat)
  | insert_failed (h : Nat)
  | deleted (h : Nat) (name : List Nat) (deleted_salary : Nat)
  | not_found (name : List Nat)
  | updated (h : Nat) (name : List Nat) (old_salary salary : Nat)
  | update_failed (h : Nat)
  | found (rec : hashRecord)
  | database (rows : List (Nat × List Nat × Nat))
  | nothing
deriving DecidableEq, Repr

/-- Lines 156-200 of `worker`: the store operation of the command. `mem` is the outcome
of the `malloc` inside `ht_insert` or `ht_search`. Returns what is printed and the list
afterwards. -/
def worker_exec (cmd : command_t) (mem : Bool) (head : List hashRecord) :
    worker_output × List hashRecord :=
  match cmd.type with
  | .CMD_INSERT =>
    let h := jenkins_one_at_a_time_hash cmd.name
    let r := ht_insert cmd.name cmd.salary h cmd.priority mem head
    (if r.1 = 0 then .inserted h cmd.name cmd.salary else .insert_failed h, r.2)
  | .CMD_DELETE =>
    let h := jenkins_one_at_a_time_hash cmd.name
    let r := ht_delete cmd.name h cmd.priority (some 0) head
    (if r.1 = 0 then .deleted h cmd.name (r.2.1.getD 0) else .not_found cmd.name, r.2.2)
  | .CMD_UPDATE =>
    let h := jenkins_one_at_a_time_hash cmd.name
    let r := ht_update cmd.name cmd.salary h cmd.priority (some 0) head
    (if r.1 = 0 then .updated h cmd.name (r.2.1.getD 0) cmd.salary else .update_failed h,
      r.2.2)
  | .CMD_SEARCH =>
    let h := jenkins_one_at_a_time_hash cmd.name
    let r := ht_search cmd.name h cmd.priority mem head
    (match r.1 with
      | some rec => .found rec
      | none => .not_found cmd.name, r.2)
  | .CMD_PRINT => (.database (ht_print_all cmd.priority head), head)
  | .CMD_INVALID => (.nothing, head)

/-- Lines 202-216 of `worker`: the completion update of the scheduling state. -/
def worker_complete (s : sched_state) (cmd : command_t) : sched_state :=
  let next := wr s.next_seq_to_run cmd.priority (rd s.next_seq_to_run cmd.priority + 1)
  if rd next cmd.priority ≥ rd s.count_for_prio cmd.priority then
    let p := scan_prio s.count_for_prio s.max_priority
      (s.max_priority - cmd.priority).toNat (cmd.priority + 1)
    { s with
      next_seq_to_run := next
      active_priority := if p ≤ s.max_priority then p else -1 }
  else { s with next_seq_to_run := next }

/-- State of a run: the scheduling state, the store, and the workers (by index into the
commands array) whose store operation has run, in the order in which they ran. -/
structure config where
  sched : sched_state
  head : List hashRecord
  ran : List Nat
deriving DecidableEq, Repr

/-- The state when `main` has spawned the workers and none has run (`main` returns
earlier when there is no command at all). -/
def main_config (tmp_commands : List command_t) : config :=
  { sched := main_sched tmp_commands, head := ht_init, ran := [] }

/-- The state after worker `i` with command `cmd` has left its wait loop, run its store
operation and made its completion update. -/
def worker_run (k : config) (i : Nat) (cmd : command_t) (mem : Bool) : config :=
  { sched := worker_complete k.sched cmd
    head := (worker_exec cmd mem k.head).2
    ran := k.ran ++ [i] }

/-- One step of the scheduler: a worker that has not run yet and whose wait loop lets it
through runs its store operation and its completion update. -/
inductive step (commands : List command_t) : config → config → Prop
  | run (k : config) (i : Nat) (cmd : command_t) (mem : Bool)
      (hcmd : commands[i]? = some cmd) (hnew : i ∉ k.ran)
      (hturn : worker_must_wait k.sched cmd = false) :
      step commands k (worker_run k i cmd mem)

/-- The states reachable from the one `main` builds. -/
def reachable (tmp_commands : List command_t) (k : config) : Prop :=
  Relation.ReflTransGen (step (main_commands tmp_commands)) (main_config tmp_commands) k

/-- Strictly smaller in the declared total order: priority, then sequence number. -/
def runs_before (a b : command_t) : Prop :=
  a.priority < b.priority ∨ (a.priority = b.priority ∧ a.seq < b.seq)

instance (a b : command_t) : Decidable (runs_before a b) := by
  unfold runs_before; infer_instance

/-- Number of commands of priority `p` in a list. -/
def prio_count (cmds : List command_t) (p : Int) : Nat :=
  cmds.countP (fun c => decide (c.priority = p))

/-- What `main` establishes for the commands array and the counters: priorities lie in
`0 .. max_priority`, a command's `seq` is the number of earlier commands of its priority,
and `count_for_prio[p]` is the number of commands of priority `p`. -/
structure well_assigned (cmds : List command_t) (count : List Int) (M : Int) : Prop where
  prio_range : ∀ (i : Nat) (c : command_t), cmds[i]? = some c → 0 ≤ c.priority ∧ c.priority ≤ M
  seq_rank : ∀ (i : Nat) (c : command_t), cmds[i]? = some c → c.seq = (prio_count (cmds.take i) c.priority : Int)
  count_len : (count.length : Int) = M + 1
  count_eq : ∀ p, 0 ≤ p → p ≤ M → rd count p = (prio_count cmds p : Int)

/-- Invariant of the scheduler over the commands array `cmds` with counters `count` and
largest priority `M`: the counters are never written, the workers that ran did so in the
declared order, and either everything has run and `active_priority` is -1, or
`active_priority` is a priority with a pending command, the classes above it are
untouched, and exactly the commands below `(active_priority, next_seq_to_run)` have
run. -/
structure sched_inv (cmds : List command_t) (count : List Int) (M : Int) (k : config) :
    Prop where
  count_same : k.sched.count_for_prio = count
  max_same : k.sched.max_priority = M
  next_len : (k.sched.next_seq_to_run.length : Int) = M + 1
  ran_valid : ∀ i ∈ k.ran, i < cmds.length
  ran_sorted : k.ran.Pairwise
    (fun i j => ∃ a b, cmds[i]? = some a ∧ cmds[j]? = some b ∧ runs_before a b)
  progress :
    (k.sched.active_priority = -1 ∧ ∀ (i : Nat) (c : command_t), cmds[i]? = some c → i ∈ k.ran) ∨
    (0 ≤ k.sched.active_priority ∧ k.sched.active_priority ≤ M ∧
      0 ≤ rd k.sched.next_seq_to_run k.sched.active_priority ∧
      rd k.sched.next_seq_to_run k.sched.active_priority <
        rd count k.sched.active_priority ∧
      (∀ p, k.sched.active_priority < p → p ≤ M → rd k.sched.next_seq_to_run p = 0) ∧
      ∀ (i : Nat) (c : command_t), cmds[i]? = some c →
        (i ∈ k.ran ↔ c.priority < k.sched.active_priority ∨
          (c.priority = k.sched.active_priority ∧
            c.seq < rd k.sched.next_seq_to_run k.sched.active_priority)))

/-- The single-threaded reference: the commands run one after the other in the order of
the list, `mems` giving the `malloc` outcome for each (a node when the list runs out). -/
def run_sequential : List command_t → List Bool → List hashRecord → List hashRecord
  | [], _, head => head
  | cmd :: rest, mems, head =>
    run_sequential rest mems.tail (worker_exec cmd (mems.headD true) head).2

/-- A small command file: `insert,A,100,2`, `insert,B,200,0`, `search,A,2`. -/
def sample_commands : List command_t :=
  [ { type := .CMD_INSERT, name := [65], salary := 100, priority := 2, seq := -1,
      original_index := 0 },
    { type := .CMD_INSERT, name := [66], salary := 200, priority := 0, seq := -1,
      original_index := 1 },
    { type := .CMD_SEARCH, name := [65], salary := 0, priority := 2, seq := -1,
      original_index := 2 } ]

/-- The state `main` builds for `sample_commands`, after the worker of `insert,B,200,0`
has run. -/
def sample_run_1 : config :=
  worker_run (main_config sample_commands) 1
    { type := .CMD_INSERT, name := [66], salary := 200, priority := 0, seq := 0,
      original_index := 1 } true

/-- The state after the worker of `insert,A,100,2` has run as well. -/
def sample_run_2 : config :=
  worker_run sample_run_1 0
    { type := .CMD_INSERT, name := [65], salary := 100, priority := 2, seq := 0,
      original_index := 0 } true

/-- The state after the worker of `search,A,2` has run as well. -/
def sample_run_3 : config :=
  worker_run sample_run_2 2
    { type := .CMD_SEARCH, name := [65], salary := 0, priority := 2, seq := 1,
      original_index := 2 } true

/-! ## Executions counted by their steps -/

/-- Executions of exactly `n` steps of the scheduler. -/
inductive run_steps (commands : List command_t) : Nat → config → config → Prop
  | zero (k : config) : run_steps commands 0 k k
  | succ (n : Nat) (k k1 k2 : config) (hrun : run_steps commands n k k1)
      (hstep : step commands k1 k2) : run_steps commands (n + 1) k k2

/-! ## Calls of the four store operations -/

/-- Call of `ht_insert`, `ht_delete`, `ht_update` or `ht_search`, with everything it
receives. -/
inductive table_call where
  | insert (name : List Nat) (salary hash_out : Nat) (thread_prio : Int) (node : Bool)
  | delete (name : List Nat) (hash_out : Nat) (thread_prio : Int) (out : Option Nat)
  | update (name : List Nat) (new_salary hash_out : Nat) (thread_prio : Int)
      (out : Option Nat)
  | search (name : List Nat) (hash_out : Nat) (thread_prio : Int) (res : Bool)

/-- The key a call is made with. -/
def table_call.key : table_call → Nat
  | .insert _ _ hash_out _ _ => hash_out
  | .delete _ hash_out _ _ => hash_out
  | .update _ _ hash_out _ _ => hash_out
  | .search _ hash_out _ _ => hash_out

/-- The list after one call. -/
def table_call.run (head : List hashRecord) : table_call → List hashRecord
  | .insert name salary hash_out thread_prio node =>
    (ht_insert name salary hash_out thread_prio node head).2
  | .delete name hash_out thread_prio out => (ht_delete name hash_out thread_prio out head).2.2
  | .update name new_salary hash_out thread_prio out =>
    (ht_update name new_salary hash_out thread_prio out head).2.2
  | .search name hash_out thread_prio res => (ht_search name hash_out thread_prio res head).2

/-- The list after a sequence of calls, the first call first. -/
def run_table_calls (head : List hashRecord) (calls : List table_call) : List hashRecord :=
  calls.foldl table_call.run head

/-! ## The command parser (`chash.c`, lines 71-139 and 253-273)

`strsep`, `strcasecmp` and `atoi` are functions of the C library; they are modelled after
the C standard and the BSD manual, `atoi` as the `(int) strtol(s, NULL, 10)` of glibc on
a host with 64-bit `long`. -/

/-- The string a C function sees in a buffer: the bytes before the first zero byte. -/
def cstr (s : List Nat) : List Nat := s.takeWhile (fun c => decide (c ≠ 0))

/-- The function `trim`: leading blanks and tabs are skipped, trailing newlines, carriage
returns, blanks and tabs are cut. -/
def trim (s : List Nat) : List Nat :=
  let s1 := s.dropWhile (fun c => decide (c = 32 ∨ c = 9))
  (s1.reverse.dropWhile (fun c => decide (c = 10 ∨ c = 13 ∨ c = 32 ∨ c = 9))).reverse

/-- All the tokens that repeated calls `strsep(&p, ",")` return: the pieces between the
commas, empty pieces included. -/
def strsep_all : List Nat → List (List Nat)
  | [] => [[]]
  | c :: rest =>
    if c = 44 then [] :: strsep_all rest
    else
      match strsep_all rest with
      | [] => [[c]]
      | tok :: toks => (c :: tok) :: toks

/-- The function `tolower` on a byte. -/
def tolower (c : Nat) : Nat := if 65 ≤ c ∧ c ≤ 90 then c + 32 else c

/-- The test `strcasecmp(a, b) == 0`. -/
def strcasecmp_eq (a b : List Nat) : Bool := decide (a.map tolower = b.map tolower)

/-- The function `isspace` in the C locale. -/
def isspace (c : Nat) : Bool := decide (c = 32 ∨ (9 ≤ c ∧ c ≤ 13))

/-- The digits read by `atoi`, most significant first, added to `acc`. -/
def atoi_digits : List Nat → Int → Int
  | [], acc => acc
  | c :: rest, acc =>
    if 48 ≤ c ∧ c ≤ 57 then atoi_digits rest (acc * 10 + ((c - 48 : Nat) : Int)) else acc

/-- The value `strtol` returns for the digits read: the number with its sign, or
`LONG_MIN` / `LONG_MAX` (64 bits) when it lies outside the range of `long`. -/
def strtol_clamp (negative : Bool) (digits : Int) : Int :=
  if negative then
    if digits > 9223372036854775808 then -9223372036854775808 else - digits
  else
    if digits > 9223372036854775807 then 9223372036854775807 else digits

/-- The cast `(int)` of a `long`: the low 32 bits, read as a signed number. -/
def to_int (n : Int) : Int := (n + 2147483648) % 4294967296 - 2147483648

/-- The function `atoi`, which is `(int) strtol(s, NULL, 10)`: white space, an optional
sign, decimal digits; a number outside `long` is clamped and the result is cut to the 32
bits of an `int`. -/
def atoi (s : List Nat) : Int :=
  match s.dropWhile isspace with
  | 45 :: rest => to_int (strtol_clamp true (atoi_digits rest 0))
  | 43 :: rest => to_int (strtol_clamp false (atoi_digits rest 0))
  | rest => to_int (strtol_clamp false (atoi_digits rest 0))

/-- The cast `(uint32_t)` of an `int`. -/
def to_u32 (n : Int) : Nat := (n % 4294967296).toNat

/-- The bytes of `threads`. -/
def kw_threads : List Nat := [116, 104, 114, 101, 97, 100, 115]

/-- The bytes of `insert`. -/
def kw_insert : List Nat := [105, 110, 115, 101, 114, 116]

/-- The bytes of `delete`. -/
def kw_delete : List Nat := [100, 101, 108, 101, 116, 101]

/-- The bytes of `update`. -/
def kw_update : List Nat := [117, 112, 100, 97, 116, 101]

/-- The bytes of `search`. -/
def kw_search : List Nat := [115, 101, 97, 114, 99, 104]

/-- The bytes of `print`. -/
def kw_print : List Nat := [112, 114, 105, 110, 116]

/-- The C string in `out->name` after `strncpy(out->name, tok, 49)`. A token of fewer
than 49 bytes is copied with its terminator. A longer one fills `name[0 .. 48]` and no
terminator is written: `name[49]` is never assigned, so the string goes on with the bytes
`name49` that memory holds from `name[49]` up to the next zero byte. -/
def parsed_name (tok name49 : List Nat) : List Nat :=
  if (strncpy tok 49).length < 49 then strncpy tok 49 else strncpy tok 49 ++ cstr name49

/-- The function `parse_line_to_command`. `copy` is the outcome of the `malloc` inside
`strdup`, `name49` the bytes in memory from `out->name[49]` on, `out` the command record
behind the pointer before the call. Returns the return code and the record afterwards. -/
def parse_line_to_command (line : List Nat) (copy : Bool) (name49 : List Nat)
    (out : command_t) : Int × command_t :=
  if !copy then (-1, out)
  else
    let tokens := ((strsep_all (cstr line)).take 16).map trim
    let t := tokens.length
    if t = 0 then (-1, out)
    else if strcasecmp_eq (tokens.getD 0 []) kw_threads then (1, out)
    else
      let priority := atoi (tokens.getD (t - 1) [])
      let out1 : command_t :=
        { type := .CMD_INVALID, name := [], salary := 0, priority := priority, seq := -1,
          original_index := -1 }
      if strcasecmp_eq (tokens.getD 0 []) kw_insert then
        if t < 4 then (-1, out1)
        else (0, { out1 with
          name := parsed_name (tokens.getD 1 []) name49
          salary := to_u32 (atoi (tokens.getD (t - 2) []))
          type := .CMD_INSERT })
      else if strcasecmp_eq (tokens.getD 0 []) kw_delete then
        if t < 3 then (-1, out1)
        else (0, { out1 with
          name := parsed_name (tokens.getD 1 []) name49, type := .CMD_DELETE })
      else if strcasecmp_eq (tokens.getD 0 []) kw_update then
        if t < 4 then (-1, out1)
        else (0, { out1 with
          name := parsed_name (tokens.getD 1 []) name49
          salary := to_u32 (atoi (tokens.getD (t - 2) []))
          type := .CMD_UPDATE })
      else if strcasecmp_eq (tokens.getD 0 []) kw_search then
        if t < 3 then (-1, out1)
        else (0, { out1 with
          name := parsed_name (tokens.getD 1 []) name49, type := .CMD_SEARCH })
      else if strcasecmp_eq (tokens.getD 0 []) kw_print then
        (0, { out1 with type := .CMD_PRINT })
      else (-1, out1)

/-- The read loop of `main` (lines 253-273) over the lines of `commands.txt`: empty
lines and the `threads` header are skipped, an accepted command is appended to
`tmp_commands` with its `original_index`, any other line is dropped with a warning.
`cmd` is the local record the parser writes to and `name49` what memory holds from
`cmd.name[49]` on, line by line (nothing when the list runs out). The `strdup` of the
parser and the `realloc` that grows `tmp_commands` are taken to succeed here. -/
def main_read : List (List Nat) → List (List Nat) → command_t → List command_t →
    List command_t
  | [], _, _, tmp_commands => tmp_commands
  | line :: rest, name49, cmd, tmp_commands =>
    if trim (cstr line) = [] then main_read rest name49.tail cmd tmp_commands
    else
      let r := parse_line_to_command (trim (cstr line)) true (name49.headD []) cmd
      if r.1 = 0 then
        main_read rest name49.tail r.2
          (tmp_commands ++ [{ r.2 with original_index := (tmp_commands.length : Int) }])
      else main_read rest name49.tail r.2 tmp_commands

/-- The line `insert,A,100,-1`. -/
def line_negative_priority : List Nat :=
  [105, 110, 115, 101, 114, 116, 44, 65, 44, 49, 48, 48, 44, 45, 49]

/-- The digits `4294967297`, one more than `2 ^ 32`. -/
def digits_above_int : List Nat := [52, 50, 57, 52, 57, 54, 55, 50, 57, 55]

/-- The digits `99999999999999999999`, a number above `LONG_MAX`. -/
def digits_above_long : List Nat :=
  [57, 57, 57, 57, 57, 57, 57, 57, 57, 57, 57, 57, 57, 57, 57, 57, 57, 57, 57, 57]

/-- A token of 49 bytes, the letter `A` 49 times. -/
def token_49_bytes : List Nat := List.replicate 49 65

/-! ## The round trip of the specification -/

/-- The commands `insert,A,100,0`, `insert,B,200,0`, `search,A,0`, `delete,B,1` as the
parser hands them to `main`. -/
def roundtrip_commands : List command_t :=
  [ { type := .CMD_INSERT, name := [65], salary := 100, priority := 0, seq := -1,
      original_index := 0 },
    { type := .CMD_INSERT, name := [66], salary := 200, priority := 0, seq := -1,
      original_index := 1 },
    { type := .CMD_SEARCH, name := [65], salary := 0, priority := 0, seq := -1,
      original_index := 2 },
    { type := .CMD_DELETE, name := [66], salary := 0, priority := 1, seq := -1,
      original_index := 3 } ]

/-- The commands of a list run one after the other by `worker_exec`, `mems` giving the
`malloc` outcome for each: what each prints, and the list at the end. -/
def run_outputs : List command_t → List Bool → List hashRecord →
    List worker_output × List hashRecord
  | [], _, head => ([], head)
  | cmd :: rest, mems, head =>
    let r := worker_exec cmd (mems.headD true) head
    let rs := run_outputs rest mems.tail r.2
    (r.1 :: rs.1, rs.2)

/-! ## Lemmas on the scan -/

theorem find_prev_append (k : Nat) (s : List hashRecord) :
    (find_prev_by_hash k s).1 ++ (find_prev_by_hash k s).2 = s := by
  induction s with
  | nil => simp [find_prev_by_hash]
  | cons c t ih =>
    by_cases h : c.hash < k
    · simp [find_prev_by_hash, h, ih]
    · simp [find_prev_by_hash, h]

theorem strictAsc_cons {c : hashRecord} {t : List hashRecord} :
    StrictAsc (c :: t) ↔ (∀ x ∈ t, c.hash < x.hash) ∧ StrictAsc t := by
  unfold StrictAsc; exact List.pairwise_cons

theorem find_prev_fst_eq_filter (k : Nat) (s : List hashRecord) (hs : StrictAsc s) :
    (find_prev_by_hash k s).1 = s.filter (fun x => decide (x.hash < k)) := by
  induction s with
  | nil => simp [find_prev_by_hash]
  | cons c t ih =>
    obtain ⟨hc, ht⟩ := strictAsc_cons.mp hs
    by_cases h : c.hash < k
    · simp [find_prev_by_hash, h, ih ht]
    · simp only [find_prev_by_hash, h, if_false]
      symm
      rw [List.filter_eq_nil_iff]
      intro x hx
      rcases List.mem_cons.mp hx with rfl | hx
      · simpa using h
      · have := hc x hx
        simp only [decide_eq_true_eq]; omega

theorem find_prev_snd_eq_filter (k : Nat) (s : List hashRecord) (hs : StrictAsc s) :
    (find_prev_by_hash k s).2 = s.filter (fun x => decide (k ≤ x.hash)) := by
  induction s with
  | nil => simp [find_prev_by_hash]
  | cons c t ih =>
    obtain ⟨hc, ht⟩ := strictAsc_cons.mp hs
    by_cases h : c.hash < k
    · have h2 : ¬ k ≤ c.hash := by omega
      simp [find_prev_by_hash, h, h2, ih ht]
    · simp only [find_prev_by_hash, h, if_false]
      symm
      rw [List.filter_eq_self]
      intro x hx
      rcases List.mem_cons.mp hx with rfl | hx
      · simp only [decide_eq_true_eq]; omega
      · have := hc x hx
        simp only [decide_eq_true_eq]; omega

theorem find_prev_fst_lt (k : Nat) (s : List hashRecord) :
    ∀ x ∈ (find_prev_by_hash k s).1, x.hash < k := by
  induction s with
  | nil => simp [find_prev_by_hash]
  | cons c t ih =>
    by_cases h : c.hash < k
    · intro x hx
      simp only [find_prev_by_hash, h, if_true, List.mem_cons] at hx
      rcases hx with rfl | hx
      · exact h
      · exact ih x hx
    · simp [find_prev_by_hash, h]

theorem find_prev_snd_head (k : Nat) (s : List hashRecord) (c : hashRecord)
    (t : List hashRecord) (h : (find_prev_by_hash k s).2 = c :: t) : k ≤ c.hash := by
  induction s with
  | nil => simp [find_prev_by_hash] at h
  | cons d u ih =>
    by_cases hd : d.hash < k
    · simp only [find_prev_by_hash, hd, if_true] at h
      exact ih h
    · simp only [find_prev_by_hash, hd, if_false, List.cons.injEq] at h
      obtain ⟨rfl, _⟩ := h
      omega

/-- On a strictly ascending list the scan for a resident key stops at that record:
what follows it is the part of the list with larger keys. -/
theorem find_prev_snd_present (k : Nat) (s : List hashRecord) (hs : StrictAsc s)
    (r : hashRecord) (hr : r ∈ s) (hk : r.hash = k) :
    (find_prev_by_hash k s).2 = r :: s.filter (fun x => decide (k < x.hash)) := by
  induction s with
  | nil => simp at hr
  | cons c t ih =>
    obtain ⟨hc, ht⟩ := strictAsc_cons.mp hs
    rcases List.mem_cons.mp hr with rfl | hr
    · have h1 : ¬ r.hash < k := by omega
      have h2 : ¬ k < r.hash := by omega
      simp only [find_prev_by_hash, h1, if_false, List.filter_cons, h2, decide_False,
        Bool.false_eq_true]
      congr 1
      symm
      rw [List.filter_eq_self]
      intro x hx
      have := hc x hx
      simp only [decide_eq_true_eq]; omega
    · have h0 := hc r hr
      have h1 : c.hash < k := by omega
      have h2 : ¬ k < c.hash := by omega
      simp only [find_prev_by_hash, h1, if_true, List.filter_cons, h2, decide_False,
        Bool.false_eq_true, if_false]
      exact ih ht hr

/-- On a strictly ascending list without the key, the scan stops in front of the part
with larger keys. -/
theorem find_prev_snd_absent (k : Nat) (s : List hashRecord) (hs : StrictAsc s)
    (hk : ∀ r ∈ s, r.hash ≠ k) :
    (find_prev_by_hash k s).2 = s.filter (fun x => decide (k < x.hash)) := by
  rw [find_prev_snd_eq_filter k s hs]
  apply List.filter_congr
  intro x hx
  have := hk x hx
  simp only [decide_eq_decide]; omega

/-! ## The operations in closed form -/

/-- Both branches of `if (!prev)` in `ht_insert` splice the node between the part
walked over and the rest. -/
theorem ht_insert_splice (name : List Nat) (salary k : Nat) (tp : Int)
    (s : List hashRecord)
    (hd : ∀ c t, (find_prev_by_hash k s).2 = c :: t → c.hash ≠ k) :
    ht_insert name salary k tp true s =
      (0, (find_prev_by_hash k s).1 ++
        { hash := k, name := strncpy name 49, salary := salary } ::
          (find_prev_by_hash k s).2) := by
  have happ := find_prev_append k s
  unfold ht_insert
  cases h2 : (find_prev_by_hash k s).2 with
  | nil =>
    cases h1 : (find_prev_by_hash k s).1 with
    | nil => rw [h1, h2] at happ; simp [← happ]
    | cons a l => simp
  | cons c t =>
    have hne := hd c t h2
    cases h1 : (find_prev_by_hash k s).1 with
    | nil => rw [h1, h2] at happ; simp [hne, ← happ]
    | cons a l => simp [hne]

theorem ht_insert_no_node (name : List Nat) (salary k : Nat) (tp : Int)
    (s : List hashRecord) : ht_insert name salary k tp false s = (-1, s) := by
  unfold ht_insert
  simp

theorem ht_insert_dup (name : List Nat) (salary k : Nat) (tp : Int) (node : Bool)
    (s : List hashRecord) (c : hashRecord) (t : List hashRecord)
    (h : (find_prev_by_hash k s).2 = c :: t) (hc : c.hash = k) :
    ht_insert name salary k tp node s = (-1, s) := by
  unfold ht_insert
  simp [h, hc]

/-- Both branches of `if (!prev)` in `ht_delete` unlink the node found. -/
theorem ht_delete_unlink (name : List Nat) (k : Nat) (tp : Int) (out : Option Nat)
    (s : List hashRecord) (c : hashRecord) (t : List hashRecord)
    (h : (find_prev_by_hash k s).2 = c :: t) (hc : c.hash = k) :
    ht_delete name k tp out s =
      (0, out.map (fun _ => c.salary), (find_prev_by_hash k s).1 ++ t) := by
  unfold ht_delete
  cases h1 : (find_prev_by_hash k s).1 with
  | nil => simp [h, hc]
  | cons a l => simp [h, hc]

theorem strictAsc_append {a b : List hashRecord} :
    StrictAsc (a ++ b) ↔
      StrictAsc a ∧ StrictAsc b ∧ ∀ x ∈ a, ∀ y ∈ b, x.hash < y.hash := by
  unfold StrictAsc; exact List.pairwise_append

theorem strictAsc_find_prev (k : Nat) (s : List hashRecord) (hs : StrictAsc s) :
    StrictAsc ((find_prev_by_hash k s).1 ++ (find_prev_by_hash k s).2) := by
  rw [find_prev_append]; exact hs

theorem ht_insert_strictAsc (name : List Nat) (salary k : Nat) (tp : Int) (node : Bool)
    (s : List hashRecord) (hs : StrictAsc s) :
    StrictAsc (ht_insert name salary k tp node s).2 := by
  cases node with
  | false => rw [ht_insert_no_node]; exact hs
  | true =>
    by_cases hd : ∀ c t, (find_prev_by_hash k s).2 = c :: t → c.hash ≠ k
    · rw [ht_insert_splice name salary k tp s hd]
      have h := strictAsc_find_prev k s hs
      obtain ⟨h1, h2, h3⟩ := strictAsc_append.mp h
      refine strictAsc_append.mpr ⟨h1, ?_, ?_⟩
      · refine strictAsc_cons.mpr ⟨?_, h2⟩
        intro x hx
        cases hc : (find_prev_by_hash k s).2 with
        | nil => rw [hc] at hx; simp at hx
        | cons c t =>
          have hne := hd c t hc
          have hle := find_prev_snd_head k s c t hc
          rw [hc] at hx h2
          obtain ⟨h4, _⟩ := strictAsc_cons.mp h2
          rcases List.mem_cons.mp hx with rfl | hx
          · show k < x.hash
            omega
          · have := h4 x hx
            show k < x.hash
            omega
      · intro x hx y hy
        rcases List.mem_cons.mp hy with rfl | hy
        · exact find_prev_fst_lt k s x hx
        · exact h3 x hx y hy
    · push_neg at hd
      obtain ⟨c, t, hc, hk⟩ := hd
      rw [ht_insert_dup name salary k tp true s c t hc hk]; exact hs

theorem ht_delete_strictAsc (name : List Nat) (k : Nat) (tp : Int) (out : Option Nat)
    (s : List hashRecord) (hs : StrictAsc s) :
    StrictAsc (ht_delete name k tp out s).2.2 := by
  cases hc : (find_prev_by_hash k s).2 with
  | nil => unfold ht_delete; simp [hc, hs]
  | cons c t =>
    by_cases hk : c.hash = k
    · rw [ht_delete_unlink name k tp out s c t hc hk]
      have h := strictAsc_find_prev k s hs
      rw [hc] at h
      obtain ⟨h1, h2, h3⟩ := strictAsc_append.mp h
      refine strictAsc_append.mpr ⟨h1, (strictAsc_cons.mp h2).2, ?_⟩
      intro x hx y hy
      exact h3 x hx y (List.mem_cons_of_mem _ hy)
    · unfold ht_delete; simp [hc, hk, hs]

theorem ht_update_strictAsc (name : List Nat) (v k : Nat) (tp : Int) (out : Option Nat)
    (s : List hashRecord) (hs : StrictAsc s) :
    StrictAsc (ht_update name v k tp out s).2.2 := by
  cases hc : (find_prev_by_hash k s).2 with
  | nil => unfold ht_update; simp [hc, hs]
  | cons c t =>
    by_cases hk : c.hash = k
    · unfold ht_update
      simp only [hc, hk, ne_eq, not_true_eq_false, if_false]
      have h := strictAsc_find_prev k s hs
      rw [hc] at h
      obtain ⟨h1, h2, h3⟩ := strictAsc_append.mp h
      obtain ⟨h4, h5⟩ := strictAsc_cons.mp h2
      refine strictAsc_append.mpr ⟨h1, strictAsc_cons.mpr ⟨?_, h5⟩, ?_⟩
      · intro x hx
        have := h4 x hx
        show k < x.hash
        omega
      · intro x hx y hy
        rcases List.mem_cons.mp hy with rfl | hy
        · have := h3 x hx c (List.mem_cons_self _ _)
          show x.hash < k
          omega
        · exact h3 x hx y (List.mem_cons_of_mem _ hy)
    · unfold ht_update; simp [hc, hk, hs]

theorem store_call_strictAsc (s : List hashRecord) (c : store_call) (hs : StrictAsc s) :
    StrictAsc (store_call.run s c) := by
  cases c with
  | insert name salary k tp node => exact ht_insert_strictAsc name salary k tp node s hs
  | delete name k tp out => exact ht_delete_strictAsc name k tp out s hs
  | update name v k tp out => exact ht_update_strictAsc name v k tp out s hs

theorem run_calls_strictAsc (calls : List store_call) :
    ∀ s, StrictAsc s → StrictAsc (run_calls s calls) := by
  induction calls with
  | nil => intro s hs; exact hs
  | cons c cs ih =>
    intro s hs
    exact ih _ (store_call_strictAsc s c hs)

theorem ht_print_all_eq_map (tp : Int) (s : List hashRecord) :
    ht_print_all tp s = s.map (fun r => (r.hash, r.name, r.salary)) := by
  induction s with
  | nil => rfl
  | cons c t ih => simp [ht_print_all, ih]

theorem find_prev_snd_head_mem (k : Nat) (s : List hashRecord) (c : hashRecord)
    (t : List hashRecord) (h : (find_prev_by_hash k s).2 = c :: t) : c ∈ s := by
  have happ := find_prev_append k s
  rw [h] at happ
  rw [← happ]
  simp

theorem strncpy_eq_take (name : List Nat) (h : ∀ b ∈ name, b ≠ 0) :
    ∀ n, strncpy name n = name.take n := by
  induction name with
  | nil => intro n; simp [strncpy]
  | cons c t ih =>
    intro n
    cases n with
    | zero => simp [strncpy]
    | succ m =>
      have hc : c ≠ 0 := h c (List.mem_cons_self _ _)
      simp [strncpy, hc, ih (fun b hb => h b (List.mem_cons_of_mem _ hb)) m]

theorem strictAsc_nodup (s : List hashRecord) (hs : StrictAsc s) : s.Nodup := by
  unfold StrictAsc at hs
  exact hs.imp (fun {a b} h hab => by rw [hab] at h; exact Nat.lt_irrefl _ h)

/-- On a strictly ascending list a resident record splits it into the smaller keys,
the record, and the larger keys. -/
theorem strictAsc_split (k : Nat) (s : List hashRecord) (hs : StrictAsc s)
    (r : hashRecord) (hr : r ∈ s) (hk : r.hash = k) :
    s = s.filter (fun x => decide (x.hash < k)) ++
      r :: s.filter (fun x => decide (k < x.hash)) := by
  have happ := find_prev_append k s
  rw [find_prev_fst_eq_filter k s hs, find_prev_snd_present k s hs r hr hk] at happ
  exact happ.symm

theorem filter_lt_map_id (k v : Nat) (s : List hashRecord) :
    (s.filter (fun x => decide (x.hash < k))).map
      (fun x => if x.hash = k then { x with salary := v } else x) =
      s.filter (fun x => decide (x.hash < k)) := by
  conv_rhs => rw [← List.map_id (s.filter (fun x => decide (x.hash < k)))]
  apply List.map_congr_left
  intro x hx
  have h := (List.mem_filter.mp hx).2
  simp only [decide_eq_true_eq] at h
  have : x.hash ≠ k := by omega
  simp [this]

theorem filter_gt_map_id (k v : Nat) (s : List hashRecord) :
    (s.filter (fun x => decide (k < x.hash))).map
      (fun x => if x.hash = k then { x with salary := v } else x) =
      s.filter (fun x => decide (k < x.hash)) := by
  conv_rhs => rw [← List.map_id (s.filter (fun x => decide (k < x.hash)))]
  apply List.map_congr_left
  intro x hx
  have h := (List.mem_filter.mp hx).2
  simp only [decide_eq_true_eq] at h
  have : x.hash ≠ k := by omega
  simp [this]

theorem filter_ne_eq_append (k : Nat) (s : List hashRecord) (hs : StrictAsc s) :
    s.filter (fun x => decide (x.hash ≠ k)) =
      s.filter (fun x => decide (x.hash < k)) ++ s.filter (fun x => decide (k < x.hash)) := by
  induction s with
  | nil => simp
  | cons c t ih =>
    obtain ⟨hc, ht⟩ := strictAsc_cons.mp hs
    rcases Nat.lt_trichotomy c.hash k with h | h | h
    · have h1 : c.hash ≠ k := by omega
      have h2 : ¬ k < c.hash := by omega
      have ih2 := ih ht
      simp only [ne_eq, decide_not] at ih2
      simp [List.filter_cons, h, h1, h2, ih2]
    · have h1 : ¬ c.hash < k := by omega
      have h2 : ¬ k < c.hash := by omega
      have h3 : t.filter (fun x => decide (x.hash < k)) = [] := by
        rw [List.filter_eq_nil_iff]
        intro x hx
        have := hc x hx
        simp only [decide_eq_true_eq]; omega
      simp only [List.filter_cons, h, h1, h2, ne_eq, not_true_eq_false, decide_False,
        Bool.false_eq_true, if_false, lt_self_iff_false]
      exact ih ht
    · have h1 : c.hash ≠ k := by omega
      have h2 : ¬ c.hash < k := by omega
      have h3 : t.filter (fun x => decide (x.hash < k)) = [] := by
        rw [List.filter_eq_nil_iff]
        intro x hx
        have := hc x hx
        simp only [decide_eq_true_eq]; omega
      have h4 := ih ht
      rw [h3] at h4
      simp only [ne_eq, decide_not, List.nil_append] at h4
      simp [List.filter_cons, h, h1, h2, h3, h4]

/-! ## The key function against its reference -/

theorem xor_shr_mod (x k : Nat) (hx : x < 2 ^ 32) :
    Nat.xor x (x / 2 ^ k) % 2 ^ 32 = x ^^^ (x >>> k) := by
  have h2 : x / 2 ^ k < 2 ^ 32 := lt_of_le_of_lt (Nat.div_le_self _ _) hx
  rw [Nat.shiftRight_eq_div_pow]
  exact Nat.mod_eq_of_lt (Nat.xor_lt_two_pow hx h2)

theorem jenkins_step_eq_reference (h b : Nat) (hb : b < 256) :
    jenkins_step h b = reference_mix h b := by
  unfold jenkins_step reference_mix
  simp only [u32, Nat.shiftLeft_eq, Nat.mod_eq_of_lt hb, Nat.add_mod_mod]
  exact (xor_shr_mod _ 6 (Nat.mod_lt _ (Nat.two_pow_pos 32))).symm

theorem jenkins_final_eq_reference (h : Nat) : jenkins_final h = reference_finish h := by
  unfold jenkins_final reference_finish
  simp only [u32, Nat.shiftLeft_eq, Nat.add_mod_mod]
  rw [xor_shr_mod _ 11 (Nat.mod_lt _ (Nat.two_pow_pos 32))]

theorem jenkins_loop_eq_foldl (name : List Nat) (hn : ∀ b ∈ name, 0 < b ∧ b < 256) :
    ∀ h, jenkins_loop name h = name.foldl reference_mix h := by
  induction name with
  | nil => intro h; rfl
  | cons c t ih =>
    intro h
    have hc := hn c (List.mem_cons_self _ _)
    have hc0 : c ≠ 0 := by omega
    simp only [jenkins_loop, hc0, if_false, List.foldl_cons]
    rw [jenkins_step_eq_reference h c hc.2]
    exact ih (fun b hb => hn b (List.mem_cons_of_mem _ hb)) _

/-! ## The store: claims -/

/-- C3. Starting from the empty list of `ht_init`, after any finite sequence of
`ht_insert` / `ht_delete` / `ht_update` calls (any keys, names, salaries, out-pointers and
`malloc` outcomes, whether a call succeeds or fails) the list is strictly ascending by
`hash`, the rows `ht_print_all` traverses are strictly ascending by their key, and no two
rows carry the same key. -/
theorem store_always_strictly_ascending (calls : List store_call) (tp : Int) :
    StrictAsc (run_calls ht_init calls) ∧
      (ht_print_all tp (run_calls ht_init calls)).Pairwise (fun a b => a.1 < b.1) ∧
      ((ht_print_all tp (run_calls ht_init calls)).map (fun a => a.1)).Nodup := by
  have h : StrictAsc (run_calls ht_init calls) :=
    run_calls_strictAsc calls ht_init List.Pairwise.nil
  have h2 : (ht_print_all tp (run_calls ht_init calls)).Pairwise (fun a b => a.1 < b.1) := by
    rw [ht_print_all_eq_map, List.pairwise_map]
    exact h
  refine ⟨h, h2, ?_⟩
  rw [List.Nodup, List.pairwise_map]
  exact h2.imp (fun {a b} hab heq => by rw [heq] at hab; exact Nat.lt_irrefl _ hab)

/-- C4. On a strictly ascending list, `ht_insert` with a key that a resident record
carries returns -1 and leaves the list as it was, for every name, salary, thread number
and `malloc` outcome. -/
theorem insert_resident_key_rejected (s : List hashRecord) (name : List Nat)
    (salary key : Nat) (tp : Int) (node : Bool) (hs : StrictAsc s)
    (hk : ∃ r ∈ s, r.hash = key) :
    ht_insert name salary key tp node s = (-1, s) := by
  obtain ⟨r, hr, hrk⟩ := hk
  exact ht_insert_dup name salary key tp node s r _
    (find_prev_snd_present key s hs r hr hrk) hrk

theorem insert_resident_key_rejected_witness :
    ht_insert [66] 7 5 0 true [⟨5, [65], 100⟩, ⟨9, [67], 3⟩] =
      (-1, [⟨5, [65], 100⟩, ⟨9, [67], 3⟩]) :=
  insert_resident_key_rejected [⟨5, [65], 100⟩, ⟨9, [67], 3⟩] [66] 7 5 0 true
    (by decide) ⟨⟨5, [65], 100⟩, by decide, rfl⟩

/-- C5, as stated, fails: the list is strictly ascending and holds no record with key 5,
yet `ht_insert` does not return 0 when `malloc` returns `NULL` (lines 57-62). -/
theorem insert_absent_key_can_fail :
    StrictAsc ([] : List hashRecord) ∧ (∀ r ∈ ([] : List hashRecord), r.hash ≠ 5) ∧
      ht_insert [65] 100 5 0 false [] = (-1, []) ∧
      (ht_insert [65] 100 5 0 false []).1 ≠ 0 := by
  decide

/-- C5, amended. On a strictly ascending list that holds no record with the key, when
`malloc` returns a node `ht_insert` returns 0 and the list afterwards is the old records
with smaller keys, then the new record (the key, the name cut by `strncpy` to 49 bytes,
the salary), then the old records with larger keys; it is one record longer and still
strictly ascending. For a name without a zero byte the stored name is its first 49
bytes. When `malloc` returns `NULL` the call returns -1 and the list is unchanged. -/
theorem insert_absent_key_splices (s : List hashRecord) (name : List Nat)
    (salary key : Nat) (tp : Int) (hs : StrictAsc s) (hk : ∀ r ∈ s, r.hash ≠ key) :
    ht_insert name salary key tp true s =
        (0, s.filter (fun x => decide (x.hash < key)) ++
          { hash := key, name := strncpy name 49, salary := salary } ::
            s.filter (fun x => decide (key < x.hash))) ∧
      (ht_insert name salary key tp true s).2.length = s.length + 1 ∧
      StrictAsc (ht_insert name salary key tp true s).2 ∧
      ((∀ b ∈ name, b ≠ 0) → strncpy name 49 = name.take 49) ∧
      ht_insert name salary key tp false s = (-1, s) := by
  have hd : ∀ c t, (find_prev_by_hash key s).2 = c :: t → c.hash ≠ key :=
    fun c t h => hk c (find_prev_snd_head_mem key s c t h)
  have h1 := ht_insert_splice name salary key tp s hd
  refine ⟨?_, ?_, ht_insert_strictAsc name salary key tp true s hs,
    fun h => strncpy_eq_take name h 49, ht_insert_no_node name salary key tp s⟩
  · rw [h1, find_prev_fst_eq_filter key s hs, find_prev_snd_absent key s hs hk]
  · rw [h1]
    have happ := congrArg List.length (find_prev_append key s)
    simp only [List.length_append, List.length_cons] at happ ⊢
    omega

theorem insert_absent_key_splices_witness :
    ht_insert [66] 7 6 0 true [⟨5, [65], 100⟩, ⟨9, [67], 3⟩] =
        (0, [⟨5, [65], 100⟩, ⟨6, [66], 7⟩, ⟨9, [67], 3⟩]) :=
  (insert_absent_key_splices [⟨5, [65], 100⟩, ⟨9, [67], 3⟩] [66] 7 6 0
    (by decide) (by decide)).1

/-- C6. On a strictly ascending list, `ht_delete` with the key of a resident record `r`
and a non-`NULL` out-pointer returns 0, stores `r.salary` behind the pointer, and the
list afterwards is the old list without `r`: the records with other keys, unchanged and
in their old order. -/
theorem delete_resident_key_removes (s : List hashRecord) (name : List Nat) (key : Nat)
    (tp : Int) (old : Nat) (r : hashRecord) (hs : StrictAsc s) (hr : r ∈ s)
    (hk : r.hash = key) :
    ht_delete name key tp (some old) s =
        (0, some r.salary, s.filter (fun x => decide (x.hash ≠ key))) ∧
      s.filter (fun x => decide (x.hash ≠ key)) = s.erase r ∧
      (ht_delete name key tp (some old) s).2.2.length + 1 = s.length := by
  have hc := find_prev_snd_present key s hs r hr hk
  have h1 := ht_delete_unlink name key tp (some old) s r _ hc hk
  have hsplit := strictAsc_split key s hs r hr hk
  have hfil := filter_ne_eq_append key s hs
  have hnot : r ∉ s.filter (fun x => decide (x.hash < key)) := by
    intro hmem
    have := (List.mem_filter.mp hmem).2
    simp only [decide_eq_true_eq] at this
    omega
  have herase : s.erase r = s.filter (fun x => decide (x.hash < key)) ++
      s.filter (fun x => decide (key < x.hash)) := by
    conv_lhs => rw [hsplit]
    rw [List.erase_append_right _ hnot, List.erase_cons_head]
  refine ⟨?_, ?_, ?_⟩
  · rw [h1, find_prev_fst_eq_filter key s hs, hfil]
    rfl
  · rw [hfil, herase]
  · rw [h1, find_prev_fst_eq_filter key s hs]
    have := congrArg List.length hsplit
    simp only [List.length_append, List.length_cons] at this ⊢
    omega

theorem delete_resident_key_removes_witness :
    ht_delete [65] 5 0 (some 0) [⟨5, [65], 100⟩, ⟨9, [67], 3⟩] =
        (0, some 100, [⟨9, [67], 3⟩]) :=
  (delete_resident_key_removes [⟨5, [65], 100⟩, ⟨9, [67], 3⟩] [65] 5 0 0 ⟨5, [65], 100⟩
    (by decide) (by decide) rfl).1

/-- C7. On a strictly ascending list, `ht_update` with the key of a resident record `r`
and a non-`NULL` out-pointer returns 0, stores the prior salary of `r` behind the
pointer, and the list afterwards is the old list with only the salary of the record with
that key replaced by `new_salary`: keys, names, number and order of the records and
every other record are as before. -/
theorem update_resident_key_overwrites (s : List hashRecord) (name : List Nat)
    (new_salary key : Nat) (tp : Int) (old : Nat) (r : hashRecord) (hs : StrictAsc s)
    (hr : r ∈ s) (hk : r.hash = key) :
    ht_update name new_salary key tp (some old) s =
        (0, some r.salary,
          s.map (fun x => if x.hash = key then { x with salary := new_salary } else x)) ∧
      (ht_update name new_salary key tp (some old) s).2.2.length = s.length ∧
      (ht_update name new_salary key tp (some old) s).2.2.map (fun x => (x.hash, x.name)) =
        s.map (fun x => (x.hash, x.name)) ∧
      (∀ x ∈ s, x ≠ r → x ∈ (ht_update name new_salary key tp (some old) s).2.2) ∧
      ({ r with salary := new_salary } : hashRecord) ∈
        (ht_update name new_salary key tp (some old) s).2.2 := by
  have hc := find_prev_snd_present key s hs r hr hk
  have hsplit := strictAsc_split key s hs r hr hk
  have hmain : ht_update name new_salary key tp (some old) s =
      (0, some r.salary,
        s.map (fun x => if x.hash = key then { x with salary := new_salary } else x)) := by
    unfold ht_update
    simp only [hc, hk, ne_eq, not_true_eq_false, if_false, Option.map_some']
    rw [find_prev_fst_eq_filter key s hs]
    conv_rhs => rw [hsplit]
    rw [List.map_append, List.map_cons, filter_lt_map_id, filter_gt_map_id]
    simp [hk]
  refine ⟨hmain, ?_, ?_, ?_, ?_⟩
  · rw [hmain]; simp
  · rw [hmain]
    simp only [List.map_map]
    apply List.map_congr_left
    intro x _
    by_cases hx : x.hash = key <;> simp [hx]
  · intro x hx hne
    rw [hmain]
    refine List.mem_map.mpr ⟨x, hx, ?_⟩
    have hxk : x.hash ≠ key := by
      intro hxk
      apply hne
      have hnd := strictAsc_nodup s hs
      by_contra hne2
      have hpw : s.Pairwise (fun a b => a.hash ≠ b.hash) := by
        unfold StrictAsc at hs
        exact hs.imp (fun {a b} h => Nat.ne_of_lt h)
      have := hpw.forall (fun {a b} h => Ne.symm h) hx hr hne2
      omega
    simp [hxk]
  · rw [hmain]
    exact List.mem_map.mpr ⟨r, hr, by simp [hk]⟩

theorem update_resident_key_overwrites_witness :
    ht_update [66] 7 5 0 (some 0) [⟨5, [65], 100⟩, ⟨9, [67], 3⟩] =
        (0, some 100, [⟨5, [65], 7⟩, ⟨9, [67], 3⟩]) :=
  (update_resident_key_overwrites [⟨5, [65], 100⟩, ⟨9, [67], 3⟩] [66] 7 5 0 0
    ⟨5, [65], 100⟩ (by decide) (by decide) rfl).1

/-- C8, as stated, fails: the list is strictly ascending and a resident record carries
key 5, yet `ht_search` returns `NULL` when `malloc` returns `NULL` (lines 140-141). -/
theorem search_resident_key_can_return_null :
    StrictAsc [(⟨5, [65], 100⟩ : hashRecord)] ∧
      (∃ r ∈ [(⟨5, [65], 100⟩ : hashRecord)], r.hash = 5) ∧
      (ht_search [65] 5 0 false [⟨5, [65], 100⟩]).1 = none := by
  decide

/-- C8, amended. On a strictly ascending list, when `malloc` returns a block
`ht_search` returns a record if and only if a resident record carries the key, and the
copy returned is that resident record (same hash, name and salary); when `malloc` returns
`NULL` it returns `NULL`; in every case the list is left unchanged. -/
theorem search_returns_resident_copy (s : List hashRecord) (name : List Nat) (key : Nat)
    (tp : Int) (hs : StrictAsc s) :
    ((∃ rec, (ht_search name key tp true s).1 = some rec) ↔ ∃ r ∈ s, r.hash = key) ∧
      (∀ r ∈ s, r.hash = key → ht_search name key tp true s = (some r, s)) ∧
      (ht_search name key tp false s).1 = none ∧
      (∀ res, (ht_search name key tp res s).2 = s) := by
  have hfound : ∀ r ∈ s, r.hash = key → ht_search name key tp true s = (some r, s) := by
    intro r hr hk
    unfold ht_search
    simp [find_prev_snd_present key s hs r hr hk, hk]
  refine ⟨⟨?_, ?_⟩, hfound, ?_, ?_⟩
  · rintro ⟨rec, hrec⟩
    unfold ht_search at hrec
    cases hc : (find_prev_by_hash key s).2 with
    | nil => simp [hc] at hrec
    | cons c t =>
      by_cases hk : c.hash = key
      · exact ⟨c, find_prev_snd_head_mem key s c t hc, hk⟩
      · simp [hc, hk] at hrec
  · rintro ⟨r, hr, hk⟩
    exact ⟨r, by rw [hfound r hr hk]⟩
  · unfold ht_search
    cases hc : (find_prev_by_hash key s).2 with
    | nil => simp
    | cons c t => by_cases hk : c.hash = key <;> simp [hk]
  · intro res
    unfold ht_search
    cases hc : (find_prev_by_hash key s).2 with
    | nil => simp
    | cons c t => by_cases hk : c.hash = key <;> simp [hk]

theorem search_returns_resident_copy_witness :
    ht_search [66] 9 0 true [⟨5, [65], 100⟩, ⟨9, [67], 3⟩] =
      (some ⟨9, [67], 3⟩, [⟨5, [65], 100⟩, ⟨9, [67], 3⟩]) :=
  (search_returns_resident_copy [⟨5, [65], 100⟩, ⟨9, [67], 3⟩] [66] 9 0 (by decide)).2.1
    ⟨9, [67], 3⟩ (by decide) rfl

/-- C9. On a strictly ascending list that holds no record with the key, `ht_delete`
returns -1, `ht_update` returns -1 and `ht_search` returns `NULL`; each leaves the list
unchanged, and `ht_delete` and `ht_update` leave the cell behind their out-pointer as it
was. This holds for every name, salary, thread number, out-pointer and `malloc`
outcome. -/
theorem absent_key_not_found (s : List hashRecord) (name : List Nat)
    (new_salary key : Nat) (tp : Int) (out : Option Nat) (res : Bool) (hs : StrictAsc s)
    (hk : ∀ r ∈ s, r.hash ≠ key) :
    ht_delete name key tp out s = (-1, out, s) ∧
      ht_update name new_salary key tp out s = (-1, out, s) ∧
      ht_search name key tp res s = (none, s) := by
  have hd : ∀ c t, (find_prev_by_hash key s).2 = c :: t → c.hash ≠ key :=
    fun c t h => hk c (find_prev_snd_head_mem key s c t h)
  unfold ht_delete ht_update ht_search
  cases hc : (find_prev_by_hash key s).2 with
  | nil => simp
  | cons c t =>
    have hne := hd c t hc
    simp [hne]

theorem absent_key_not_found_witness :
    ht_delete [66] 6 0 (some 42) [⟨5, [65], 100⟩, ⟨9, [67], 3⟩] =
        (-1, some 42, [⟨5, [65], 100⟩, ⟨9, [67], 3⟩]) ∧
      ht_update [66] 7 6 0 (some 42) [⟨5, [65], 100⟩, ⟨9, [67], 3⟩] =
        (-1, some 42, [⟨5, [65], 100⟩, ⟨9, [67], 3⟩]) ∧
      ht_search [66] 6 0 true [⟨5, [65], 100⟩, ⟨9, [67], 3⟩] =
        (none, [⟨5, [65], 100⟩, ⟨9, [67], 3⟩]) :=
  absent_key_not_found [⟨5, [65], 100⟩, ⟨9, [67], 3⟩] [66] 7 6 0 (some 42) true
    (by decide) (by decide)

/-! ## The key function: claim -/

/-- C10. For every name made of non-zero bytes with values 0..255,
`jenkins_one_at_a_time_hash` equals the Jenkins one-at-a-time reference of the
specification (per byte `h + b`, `h + (h << 10)`, `h XOR (h >> 6)`, then `h + (h << 3)`,
`h XOR (h >> 11)`, `h + (h << 15)`, every step modulo `2 ^ 32`); and the hash of the
one-byte name "a" is 0xCA2E9442. -/
theorem jenkins_hash_matches_reference :
    (∀ name : List Nat, (∀ b ∈ name, 0 < b ∧ b < 256) →
        jenkins_one_at_a_time_hash name = reference_hash name) ∧
      jenkins_one_at_a_time_hash [97] = 0xCA2E9442 := by
  refine ⟨?_, by decide⟩
  intro name hn
  unfold jenkins_one_at_a_time_hash reference_hash
  rw [jenkins_loop_eq_foldl name hn 0, jenkins_final_eq_reference]

theorem jenkins_hash_matches_reference_witness :
    jenkins_one_at_a_time_hash [74, 111, 104, 110] = reference_hash [74, 111, 104, 110] :=
  jenkins_hash_matches_reference.1 [74, 111, 104, 110] (by decide)

/-! ## The scheduler: arrays and counters -/

theorem rd_wr_same (a : List Int) (i v : Int) (hlt : i.toNat < a.length) :
    rd (wr a i v) i = v := by
  unfold rd wr
  rw [List.getD_eq_getElem?_getD, List.getElem?_set_self hlt]
  rfl

theorem rd_wr_other (a : List Int) (i j v : Int) (hi : 0 ≤ i) (hj : 0 ≤ j) (hne : i ≠ j) :
    rd (wr a i v) j = rd a j := by
  unfold rd wr
  have h : i.toNat ≠ j.toNat := by omega
  rw [List.getD_eq_getElem?_getD, List.getD_eq_getElem?_getD, List.getElem?_set_ne h]

theorem length_wr (a : List Int) (i v : Int) : (wr a i v).length = a.length := by
  unfold wr; simp

theorem rd_calloc (n i : Int) : rd (calloc n) i = 0 := by
  unfold rd calloc
  rw [List.getD_eq_getElem?_getD]
  by_cases h : i.toNat < n.toNat
  · simp [List.getElem?_replicate, h]
  · simp [List.getElem?_replicate, h]

theorem length_calloc (n : Int) (hn : 0 ≤ n) : ((calloc n).length : Int) = n := by
  unfold calloc; simp [hn]

theorem foldl_max_spec (l : List command_t) :
    ∀ m0 : Int, m0 ≤ l.foldl (fun m c => if c.priority > m then c.priority else m) m0 ∧
      ∀ c ∈ l, c.priority ≤ l.foldl (fun m c => if c.priority > m then c.priority else m) m0 := by
  induction l with
  | nil => intro m0; simp
  | cons a t ih =>
    intro m0
    simp only [List.foldl_cons]
    have hx : m0 ≤ (if a.priority > m0 then a.priority else m0) ∧
        a.priority ≤ (if a.priority > m0 then a.priority else m0) := by
      split_ifs <;> omega
    obtain ⟨h1, h2⟩ := ih (if a.priority > m0 then a.priority else m0)
    refine ⟨le_trans hx.1 h1, ?_⟩
    intro c hc
    rcases List.mem_cons.mp hc with rfl | hc
    · exact le_trans hx.2 h1
    · exact h2 c hc

theorem main_max_priority_nonneg (tmp : List command_t) : 0 ≤ main_max_priority tmp := by
  unfold main_max_priority
  simp only
  split_ifs <;> omega

theorem main_max_priority_ge (tmp : List command_t) (c : command_t) (hc : c ∈ tmp) :
    c.priority ≤ main_max_priority tmp := by
  have h := (foldl_max_spec tmp (-1)).2 c hc
  unfold main_max_priority
  simp only
  split_ifs <;> omega

theorem length_main_count (l : List command_t) :
    ∀ cnt, (main_count l cnt).length = cnt.length := by
  induction l with
  | nil => intro cnt; rfl
  | cons a t ih =>
    intro cnt
    unfold main_count at ih ⊢
    simp only [List.foldl_cons]
    rw [ih, length_wr]

theorem rd_main_count (l : List command_t) :
    ∀ cnt : List Int, (∀ c ∈ l, 0 ≤ c.priority ∧ c.priority.toNat < cnt.length) →
      ∀ p, 0 ≤ p → rd (main_count l cnt) p = rd cnt p + (prio_count l p : Int) := by
  induction l with
  | nil => intro cnt _ p _; simp [main_count, prio_count]
  | cons a t ih =>
    intro cnt hr p hp
    have ha := hr a (List.mem_cons_self _ _)
    have ht : ∀ c ∈ t, 0 ≤ c.priority ∧
        c.priority.toNat < (wr cnt a.priority (rd cnt a.priority + 1)).length := by
      intro c hc
      rw [length_wr]
      exact hr c (List.mem_cons_of_mem _ hc)
    have h := ih (wr cnt a.priority (rd cnt a.priority + 1)) ht p hp
    unfold main_count at h ⊢
    simp only [List.foldl_cons]
    rw [h]
    unfold prio_count
    by_cases hap : a.priority = p
    · subst hap
      rw [rd_wr_same _ _ _ ha.2, List.countP_cons_of_pos _ _ (by simp)]
      push_cast
      ring
    · rw [rd_wr_other _ _ _ _ ha.1 hp hap, List.countP_cons_of_neg _ _ (by simpa using hap)]

theorem main_assign_seq_getElem (l : List command_t) :
    ∀ (sa : List Int), (∀ c ∈ l, 0 ≤ c.priority ∧ c.priority.toNat < sa.length) →
      ∀ (i : Nat) (c : command_t), (main_assign_seq l sa)[i]? = some c →
        ∃ c0, l[i]? = some c0 ∧
          c = { c0 with seq := rd sa c0.priority + (prio_count (l.take i) c0.priority : Int) } := by
  induction l with
  | nil => intro sa _ i c h; simp [main_assign_seq] at h
  | cons a t ih =>
    intro sa hr i c h
    have ha := hr a (List.mem_cons_self _ _)
    cases i with
    | zero =>
      simp only [main_assign_seq, List.getElem?_cons_zero, Option.some.injEq] at h
      refine ⟨a, by simp, ?_⟩
      simp [prio_count, ← h]
    | succ j =>
      simp only [main_assign_seq, List.getElem?_cons_succ] at h
      have ht : ∀ c ∈ t, 0 ≤ c.priority ∧
          c.priority.toNat < (wr sa a.priority (rd sa a.priority + 1)).length := by
        intro c hc
        rw [length_wr]
        exact hr c (List.mem_cons_of_mem _ hc)
      obtain ⟨c0, hc0, hc⟩ := ih _ ht j c h
      refine ⟨c0, by simpa using hc0, ?_⟩
      rw [hc]
      have hc0mem : c0 ∈ t := List.getElem?_mem hc0
      have hc0r := hr c0 (List.mem_cons_of_mem _ hc0mem)
      congr 1
      unfold prio_count
      simp only [List.take_succ_cons]
      by_cases hap : a.priority = c0.priority
      · rw [← hap, rd_wr_same _ _ _ ha.2, List.countP_cons_of_pos _ _ (by simp)]
        push_cast
        ring
      · rw [rd_wr_other _ _ _ _ ha.1 hc0r.1 hap,
          List.countP_cons_of_neg _ _ (by simpa using hap)]

theorem main_assign_seq_priorities (l : List command_t) :
    ∀ sa : List Int, (main_assign_seq l sa).map (fun c => c.priority) =
      l.map (fun c => c.priority) := by
  induction l with
  | nil => intro sa; rfl
  | cons a t ih => intro sa; simp [main_assign_seq, ih]

theorem prio_count_eq_of_priorities (l1 l2 : List command_t)
    (h : l1.map (fun c => c.priority) = l2.map (fun c => c.priority)) (p : Int) :
    prio_count l1 p = prio_count l2 p := by
  have e : ∀ l : List command_t,
      prio_count l p = (l.map (fun c => c.priority)).countP (fun x => decide (x = p)) := by
    intro l
    unfold prio_count
    rw [List.countP_map]
    rfl
  rw [e l1, e l2, h]

theorem prio_count_take_eq_of_priorities (l1 l2 : List command_t)
    (h : l1.map (fun c => c.priority) = l2.map (fun c => c.priority)) (i : Nat) (p : Int) :
    prio_count (l1.take i) p = prio_count (l2.take i) p := by
  apply prio_count_eq_of_priorities
  rw [List.map_take, List.map_take, h]

/-- What `main` builds is well assigned when every priority is non-negative. -/
theorem main_well_assigned (tmp : List command_t) (h : ∀ c ∈ tmp, 0 ≤ c.priority) :
    well_assigned (main_commands tmp) (main_sched tmp).count_for_prio
      (main_max_priority tmp) := by
  have hM := main_max_priority_nonneg tmp
  have hlen : ((calloc (main_max_priority tmp + 1)).length : Int) =
      main_max_priority tmp + 1 := length_calloc _ (by omega)
  have hr : ∀ c ∈ tmp, 0 ≤ c.priority ∧
      c.priority.toNat < (calloc (main_max_priority tmp + 1)).length := by
    intro c hc
    have h1 := h c hc
    have h2 := main_max_priority_ge tmp c hc
    refine ⟨h1, ?_⟩
    omega
  have hpr := main_assign_seq_priorities tmp (calloc (main_max_priority tmp + 1))
  have hget : ∀ (i : Nat) (c : command_t), (main_commands tmp)[i]? = some c →
      ∃ c0, tmp[i]? = some c0 ∧ c.priority = c0.priority ∧
        c.seq = (prio_count (tmp.take i) c0.priority : Int) := by
    intro i c hc
    obtain ⟨c0, h0, he⟩ := main_assign_seq_getElem tmp _ hr i c hc
    refine ⟨c0, h0, by rw [he], ?_⟩
    rw [he]
    simp [rd_calloc]
  constructor
  · intro i c hc
    obtain ⟨c0, h0, hp, _⟩ := hget i c hc
    have hmem := List.getElem?_mem h0
    rw [hp]
    exact ⟨h c0 hmem, main_max_priority_ge tmp c0 hmem⟩
  · intro i c hc
    obtain ⟨c0, h0, hp, hs⟩ := hget i c hc
    rw [hs, hp]
    congr 1
    exact (prio_count_take_eq_of_priorities _ _ hpr i c0.priority).symm
  · show ((main_count tmp (calloc (main_max_priority tmp + 1))).length : Int) = _
    rw [length_main_count]
    exact hlen
  · intro p hp0 _
    show rd (main_count tmp (calloc (main_max_priority tmp + 1))) p = _
    rw [rd_main_count tmp _ hr p hp0, rd_calloc]
    simp only [zero_add]
    congr 1
    exact (prio_count_eq_of_priorities _ _ hpr p).symm

/-! ## Ranks within a priority class -/

theorem countP_take_lt {α : Type} (q : α → Bool) (l : List α) :
    ∀ (i : Nat) (c : α), l[i]? = some c → q c = true →
      (l.take i).countP q < l.countP q := by
  induction l with
  | nil => intro i c h; simp at h
  | cons a t ih =>
    intro i c h hq
    cases i with
    | zero =>
      simp only [List.getElem?_cons_zero, Option.some.injEq] at h
      subst h
      simp [List.countP_cons_of_pos _ _ hq]
    | succ j =>
      simp only [List.getElem?_cons_succ] at h
      have := ih j c h hq
      simp only [List.take_succ_cons, List.countP_cons]
      omega

theorem countP_take_mono {α : Type} (q : α → Bool) (l : List α) (i j : Nat) (h : i ≤ j) :
    (l.take i).countP q ≤ (l.take j).countP q := by
  have : l.take i = (l.take j).take i := by
    rw [List.take_take, Nat.min_eq_left h]
  rw [this]
  exact (List.take_sublist _ _).countP_le _

theorem countP_take_strict {α : Type} (q : α → Bool) (l : List α) (i j : Nat) (c : α)
    (hij : i < j) (hc : l[i]? = some c) (hq : q c = true) :
    (l.take i).countP q < (l.take j).countP q := by
  have h1 : (l.take j)[i]? = some c := by
    rw [List.getElem?_take_of_lt hij]; exact hc
  have h2 := countP_take_lt q (l.take j) i c h1 hq
  rwa [List.take_take, Nat.min_eq_left (Nat.le_of_lt hij)] at h2

theorem countP_take_surj {α : Type} (q : α → Bool) (l : List α) :
    ∀ s : Nat, s < l.countP q →
      ∃ (i : Nat) (c : α), l[i]? = some c ∧ q c = true ∧ (l.take i).countP q = s := by
  induction l with
  | nil => intro s h; simp at h
  | cons a t ih =>
    intro s h
    by_cases hq : q a = true
    · cases s with
      | zero => exact ⟨0, a, by simp, hq, by simp⟩
      | succ r =>
        rw [List.countP_cons_of_pos _ _ hq] at h
        obtain ⟨i, c, hc, hqc, hcnt⟩ := ih r (by omega)
        refine ⟨i + 1, c, by simpa using hc, hqc, ?_⟩
        simp only [List.take_succ_cons, List.countP_cons_of_pos _ _ hq]
        omega
    · rw [List.countP_cons_of_neg _ _ hq] at h
      obtain ⟨i, c, hc, hqc, hcnt⟩ := ih s h
      refine ⟨i + 1, c, by simpa using hc, hqc, ?_⟩
      simp only [List.take_succ_cons, List.countP_cons_of_neg _ _ hq]
      exact hcnt

/-! ## The scan for the next priority -/

theorem scan_prio_spec (count : List Int) (M : Int) :
    ∀ (fuel : Nat) (p : Int), p ≤ M + 1 → M + 1 - p ≤ (fuel : Int) →
      p ≤ scan_prio count M fuel p ∧ scan_prio count M fuel p ≤ M + 1 ∧
        (scan_prio count M fuel p ≤ M → 0 < rd count (scan_prio count M fuel p)) ∧
        ∀ q, p ≤ q → q < scan_prio count M fuel p → rd count q ≤ 0 := by
  intro fuel
  induction fuel with
  | zero =>
    intro p hp hf
    simp only [scan_prio]
    refine ⟨le_refl _, hp, ?_, ?_⟩
    · intro h; simp at hf; omega
    · intro q h1 h2; omega
  | succ n ih =>
    intro p hp hf
    simp only [scan_prio]
    by_cases hpm : p ≤ M
    · by_cases hc : rd count p > 0
      · rw [if_pos hpm, if_pos hc]
        refine ⟨le_refl _, hp, fun _ => hc, ?_⟩
        intro q h1 h2; omega
      · rw [if_pos hpm, if_neg hc]
        obtain ⟨h1, h2, h3, h4⟩ := ih (p + 1) (by omega) (by push_cast at hf; omega)
        refine ⟨by omega, h2, h3, ?_⟩
        intro q hq1 hq2
        by_cases hqp : q = p
        · subst hqp; omega
        · exact h4 q (by omega) hq2
    · rw [if_neg hpm]
      refine ⟨le_refl _, hp, fun h => absurd h hpm, ?_⟩
      intro q h1 h2; omega

/-! ## Consequences of the assignment -/

theorem well_assigned_seq_lt {cmds : List command_t} {count : List Int} {M : Int}
    (W : well_assigned cmds count M) (i : Nat) (c : command_t) (hc : cmds[i]? = some c) :
    0 ≤ c.seq ∧ c.seq < rd count c.priority := by
  obtain ⟨h0, hM⟩ := W.prio_range i c hc
  rw [W.seq_rank i c hc, W.count_eq c.priority h0 hM]
  have := countP_take_lt (fun x : command_t => decide (x.priority = c.priority)) cmds i c hc
    (by simp)
  unfold prio_count
  omega

theorem well_assigned_seq_strict {cmds : List command_t} {count : List Int} {M : Int}
    (W : well_assigned cmds count M) (i j : Nat) (a b : command_t)
    (ha : cmds[i]? = some a) (hb : cmds[j]? = some b) (hp : a.priority = b.priority)
    (hij : i < j) : a.seq < b.seq := by
  rw [W.seq_rank i a ha, W.seq_rank j b hb, hp]
  have := countP_take_strict (fun x : command_t => decide (x.priority = b.priority)) cmds
    i j a hij ha (by simp [hp])
  unfold prio_count
  omega

theorem well_assigned_unique {cmds : List command_t} {count : List Int} {M : Int}
    (W : well_assigned cmds count M) (i j : Nat) (a b : command_t)
    (ha : cmds[i]? = some a) (hb : cmds[j]? = some b) (hp : a.priority = b.priority)
    (hs : a.seq = b.seq) : i = j := by
  rcases Nat.lt_trichotomy i j with h | h | h
  · have := well_assigned_seq_strict W i j a b ha hb hp h; omega
  · exact h
  · have := well_assigned_seq_strict W j i b a hb ha hp.symm h; omega

theorem well_assigned_surj {cmds : List command_t} {count : List Int} {M : Int}
    (W : well_assigned cmds count M) (p s : Int) (hp0 : 0 ≤ p) (hpM : p ≤ M)
    (hs0 : 0 ≤ s) (hs : s < rd count p) :
    ∃ (i : Nat) (c : command_t), cmds[i]? = some c ∧ c.priority = p ∧ c.seq = s := by
  rw [W.count_eq p hp0 hpM] at hs
  have hlt : s.toNat < cmds.countP (fun x : command_t => decide (x.priority = p)) := by
    unfold prio_count at hs; omega
  obtain ⟨i, c, hc, hq, hcnt⟩ := countP_take_surj _ cmds s.toNat hlt
  have hcp : c.priority = p := by simpa using hq
  refine ⟨i, c, hc, hcp, ?_⟩
  rw [W.seq_rank i c hc, hcp]
  unfold prio_count
  omega

theorem well_assigned_count_pos {cmds : List command_t} {count : List Int} {M : Int}
    (W : well_assigned cmds count M) (i : Nat) (c : command_t) (hc : cmds[i]? = some c) :
    0 < rd count c.priority := by
  have := well_assigned_seq_lt W i c hc
  omega

theorem runs_before_irrefl (a : command_t) : ¬ runs_before a a := by
  unfold runs_before; omega

theorem runs_before_asymm (a b : command_t) (h : runs_before a b) : ¬ runs_before b a := by
  unfold runs_before at *; omega

theorem worker_must_wait_false (s : sched_state) (cmd : command_t) :
    worker_must_wait s cmd = false ↔
      s.active_priority = cmd.priority ∧ rd s.next_seq_to_run cmd.priority = cmd.seq := by
  unfold worker_must_wait
  simp

/-! ## The invariant holds initially -/

theorem main_start_p_eq_scan (count : List Int) (M : Int)
    (h0 : 0 ≤ scan_prio count M (M + 1).toNat 0) (hM : scan_prio count M (M + 1).toNat 0 ≤ M) :
    main_start_p count M = scan_prio count M (M + 1).toNat 0 := by
  unfold main_start_p
  simp only
  rw [if_pos hM, if_neg (by omega)]

theorem main_config_inv (tmp : List command_t) (hne : tmp ≠ [])
    (h : ∀ c ∈ tmp, 0 ≤ c.priority) :
    sched_inv (main_commands tmp) (main_sched tmp).count_for_prio (main_max_priority tmp)
      (main_config tmp) := by
  have W := main_well_assigned tmp h
  have hM := main_max_priority_nonneg tmp
  -- some command exists
  have hlen : (main_commands tmp).length = tmp.length := by
    have := congrArg List.length
      (main_assign_seq_priorities tmp (calloc (main_max_priority tmp + 1)))
    simpa [main_commands] using this
  have hpos : 0 < (main_commands tmp).length := by
    rw [hlen]; exact List.length_pos.mpr hne
  obtain ⟨c0, hc0⟩ : ∃ c0, (main_commands tmp)[0]? = some c0 :=
    ⟨(main_commands tmp)[0], List.getElem?_eq_getElem hpos⟩
  have hc0r := W.prio_range 0 c0 hc0
  have hc0p := well_assigned_count_pos W 0 c0 hc0
  -- the scan of lines 317-320
  obtain ⟨s1, s2, s3, s4⟩ := scan_prio_spec (main_sched tmp).count_for_prio
    (main_max_priority tmp) (main_max_priority tmp + 1).toNat 0 (by omega) (by omega)
  have hle : scan_prio (main_sched tmp).count_for_prio (main_max_priority tmp)
      (main_max_priority tmp + 1).toNat 0 ≤ c0.priority := by
    by_contra hcon
    have := s4 c0.priority hc0r.1 (by omega)
    omega
  have hact : (main_config tmp).sched.active_priority =
      scan_prio (main_sched tmp).count_for_prio (main_max_priority tmp)
        (main_max_priority tmp + 1).toNat 0 := by
    exact main_start_p_eq_scan (main_sched tmp).count_for_prio (main_max_priority tmp) s1
      (by omega)
  have hnext : ∀ p, rd (main_config tmp).sched.next_seq_to_run p = 0 := fun p => rd_calloc _ p
  constructor
  · rfl
  · rfl
  · exact length_calloc _ (by omega)
  · intro i hi; simp [main_config] at hi
  · simp [main_config]
  · right
    rw [hact]
    refine ⟨s1, by omega, ?_, ?_, ?_, ?_⟩
    · rw [hnext]
    · rw [hnext]; exact s3 (by omega)
    · intro p _ _; exact hnext p
    · intro i c hc
      have hcp := well_assigned_count_pos W i c hc
      have hcr := W.prio_range i c hc
      have hcs := well_assigned_seq_lt W i c hc
      rw [hnext]
      constructor
      · intro hi; simp [main_config] at hi
      · rintro (hlt | ⟨_, hlt⟩)
        · have := s4 c.priority hcr.1 hlt
          omega
        · omega

/-! ## The completion update -/

theorem worker_complete_count (s : sched_state) (cmd : command_t) :
    (worker_complete s cmd).count_for_prio = s.count_for_prio := by
  unfold worker_complete
  simp only
  split_ifs <;> rfl

theorem worker_complete_max (s : sched_state) (cmd : command_t) :
    (worker_complete s cmd).max_priority = s.max_priority := by
  unfold worker_complete
  simp only
  split_ifs <;> rfl

theorem worker_complete_next (s : sched_state) (cmd : command_t) :
    (worker_complete s cmd).next_seq_to_run =
      wr s.next_seq_to_run cmd.priority (rd s.next_seq_to_run cmd.priority + 1) := by
  unfold worker_complete
  simp only
  split_ifs <;> rfl

theorem worker_complete_active_stay (s : sched_state) (cmd : command_t)
    (h : ¬ rd (wr s.next_seq_to_run cmd.priority (rd s.next_seq_to_run cmd.priority + 1))
      cmd.priority ≥ rd s.count_for_prio cmd.priority) :
    (worker_complete s cmd).active_priority = s.active_priority := by
  unfold worker_complete
  simp only
  rw [if_neg h]

theorem worker_complete_active_scan (s : sched_state) (cmd : command_t)
    (h : rd (wr s.next_seq_to_run cmd.priority (rd s.next_seq_to_run cmd.priority + 1))
      cmd.priority ≥ rd s.count_for_prio cmd.priority) :
    (worker_complete s cmd).active_priority =
      if scan_prio s.count_for_prio s.max_priority (s.max_priority - cmd.priority).toNat
          (cmd.priority + 1) ≤ s.max_priority then
        scan_prio s.count_for_prio s.max_priority (s.max_priority - cmd.priority).toNat
          (cmd.priority + 1)
      else -1 := by
  unfold worker_complete
  simp only
  rw [if_pos h]

/-- Which workers have run after the worker of the command at `(a, nx)` has: those that
had, and that one. -/
theorem ran_after_step {cmds : List command_t} {count : List Int} {M : Int}
    (W : well_assigned cmds count M) (ran : List Nat) (i : Nat) (cmd : command_t)
    (hcmd : cmds[i]? = some cmd)
    (hiff : ∀ (j : Nat) (c : command_t), cmds[j]? = some c →
      (j ∈ ran ↔ c.priority < cmd.priority ∨ (c.priority = cmd.priority ∧ c.seq < cmd.seq)))
    (j : Nat) (c : command_t) (hc : cmds[j]? = some c) :
    j ∈ ran ++ [i] ↔
      c.priority < cmd.priority ∨ (c.priority = cmd.priority ∧ c.seq < cmd.seq + 1) := by
  rw [List.mem_append, List.mem_singleton, hiff j c hc]
  constructor
  · rintro (h | h)
    · rcases h with h | ⟨h1, h2⟩
      · exact Or.inl h
      · exact Or.inr ⟨h1, by omega⟩
    · subst h
      rw [hcmd] at hc
      cases hc
      exact Or.inr ⟨rfl, by omega⟩
  · rintro (h | ⟨h1, h2⟩)
    · exact Or.inl (Or.inl h)
    · by_cases hlt : c.seq < cmd.seq
      · exact Or.inl (Or.inr ⟨h1, hlt⟩)
      · exact Or.inr (well_assigned_unique W j i c cmd hc hcmd h1 (by omega))

/-- The invariant is kept by a step. -/
theorem sched_inv_step {cmds : List command_t} {count : List Int} {M : Int}
    (W : well_assigned cmds count M) (k : config) (hinv : sched_inv cmds count M k)
    (i : Nat) (cmd : command_t) (mem : Bool) (hcmd : cmds[i]? = some cmd)
    (hnew : i ∉ k.ran) (hturn : worker_must_wait k.sched cmd = false) :
    sched_inv cmds count M (worker_run k i cmd mem) := by
  obtain ⟨hact, hseq⟩ := (worker_must_wait_false _ _).mp hturn
  rcases hinv.progress with ⟨_, hall⟩ | ⟨ha0, haM, hs0, hslt, hzero, hiff⟩
  · exact absurd (hall i cmd hcmd) hnew
  rw [hact] at ha0 haM hs0 hslt hzero hiff
  rw [hseq] at hs0 hslt hiff
  have hcnt := hinv.count_same
  have hmax := hinv.max_same
  have hnl := hinv.next_len
  have hidx : cmd.priority.toNat < k.sched.next_seq_to_run.length := by omega
  have hrd_a : rd (wr k.sched.next_seq_to_run cmd.priority
      (rd k.sched.next_seq_to_run cmd.priority + 1)) cmd.priority = cmd.seq + 1 := by
    rw [rd_wr_same _ _ _ hidx, hseq]
  have hrd_o : ∀ p, cmd.priority < p →
      rd (wr k.sched.next_seq_to_run cmd.priority
        (rd k.sched.next_seq_to_run cmd.priority + 1)) p = 0 := by
    intro p hp
    by_cases hpM : p ≤ M
    · rw [rd_wr_other _ _ _ _ ha0 (by omega) (by omega)]
      exact hzero p hp hpM
    · unfold rd
      rw [List.getD_eq_getElem?_getD, List.getElem?_eq_none (by rw [length_wr]; omega)]
      rfl
  have hran := ran_after_step W k.ran i cmd hcmd hiff
  have hseqs : ∀ (j : Nat) (c : command_t), cmds[j]? = some c →
      0 ≤ c.seq ∧ c.seq < rd count c.priority := fun j c hc => well_assigned_seq_lt W j c hc
  constructor
  · show (worker_complete k.sched cmd).count_for_prio = count
    rw [worker_complete_count]; exact hcnt
  · show (worker_complete k.sched cmd).max_priority = M
    rw [worker_complete_max]; exact hmax
  · show ((worker_complete k.sched cmd).next_seq_to_run.length : Int) = M + 1
    rw [worker_complete_next, length_wr]; exact hnl
  · intro j hj
    show j < cmds.length
    rcases List.mem_append.mp hj with hj | hj
    · exact hinv.ran_valid j hj
    · rw [List.mem_singleton.mp hj]
      exact (List.getElem?_eq_some_iff.mp hcmd).1
  · show (k.ran ++ [i]).Pairwise _
    rw [List.pairwise_append]
    refine ⟨hinv.ran_sorted, List.pairwise_singleton _ _, ?_⟩
    intro j hj j2 hj2
    rw [List.mem_singleton.mp hj2]
    have hjlt := hinv.ran_valid j hj
    refine ⟨cmds[j], cmd, List.getElem?_eq_getElem hjlt, hcmd, ?_⟩
    exact (hiff j cmds[j] (List.getElem?_eq_getElem hjlt)).mp hj
  · show (_ ∧ ∀ (j : Nat) (c : command_t), cmds[j]? = some c → j ∈ k.ran ++ [i]) ∨ _
    by_cases hex : rd (wr k.sched.next_seq_to_run cmd.priority
        (rd k.sched.next_seq_to_run cmd.priority + 1)) cmd.priority ≥
        rd k.sched.count_for_prio cmd.priority
    · -- the class is exhausted: scan for the next one
      obtain ⟨s1, s2, s3, s4⟩ := scan_prio_spec count M (M - cmd.priority).toNat
        (cmd.priority + 1) (by omega) (by omega)
      have hact2 := worker_complete_active_scan k.sched cmd hex
      rw [hcnt, hmax] at hact2
      rw [hrd_a, hcnt] at hex
      have hbelow : ∀ (j : Nat) (c : command_t), cmds[j]? = some c →
          c.priority < scan_prio count M (M - cmd.priority).toNat (cmd.priority + 1) →
          j ∈ k.ran ++ [i] := by
        intro j c hc hlt
        have hcp := well_assigned_count_pos W j c hc
        have hcs := hseqs j c hc
        have hle : c.priority ≤ cmd.priority := by
          by_contra hcon
          have := s4 c.priority (by omega) hlt
          omega
        refine (hran j c hc).mpr ?_
        rcases lt_or_eq_of_le hle with h | h
        · exact Or.inl h
        · refine Or.inr ⟨h, ?_⟩
          rw [h] at hcs
          omega
      by_cases hr : scan_prio count M (M - cmd.priority).toNat (cmd.priority + 1) ≤ M
      · right
        rw [if_pos hr] at hact2
        show 0 ≤ (worker_complete k.sched cmd).active_priority ∧
          (worker_complete k.sched cmd).active_priority ≤ M ∧
          0 ≤ rd (worker_complete k.sched cmd).next_seq_to_run
            (worker_complete k.sched cmd).active_priority ∧
          rd (worker_complete k.sched cmd).next_seq_to_run
            (worker_complete k.sched cmd).active_priority <
              rd count (worker_complete k.sched cmd).active_priority ∧
          (∀ p, (worker_complete k.sched cmd).active_priority < p → p ≤ M →
            rd (worker_complete k.sched cmd).next_seq_to_run p = 0) ∧
          ∀ (j : Nat) (c : command_t), cmds[j]? = some c →
            (j ∈ k.ran ++ [i] ↔ c.priority < (worker_complete k.sched cmd).active_priority ∨
              (c.priority = (worker_complete k.sched cmd).active_priority ∧
                c.seq < rd (worker_complete k.sched cmd).next_seq_to_run
                  (worker_complete k.sched cmd).active_priority))
        rw [hact2, worker_complete_next]
        have hz := hrd_o _ (show cmd.priority <
          scan_prio count M (M - cmd.priority).toNat (cmd.priority + 1) by omega)
        refine ⟨by omega, hr, by omega, ?_, ?_, ?_⟩
        · rw [hz]; exact s3 hr
        · intro p hp _
          exact hrd_o p (by omega)
        · intro j c hc
          rw [hz]
          constructor
          · intro hj
            left
            rcases (hran j c hc).mp hj with h | ⟨h, _⟩ <;> omega
          · rintro (h | ⟨_, h⟩)
            · exact hbelow j c hc h
            · have := hseqs j c hc; omega
      · left
        rw [if_neg hr] at hact2
        refine ⟨hact2, ?_⟩
        intro j c hc
        have hcr := W.prio_range j c hc
        exact hbelow j c hc (by omega)
    · -- the class goes on
      right
      have hact2 := worker_complete_active_stay k.sched cmd hex
      rw [hrd_a, hcnt] at hex
      show 0 ≤ (worker_complete k.sched cmd).active_priority ∧
        (worker_complete k.sched cmd).active_priority ≤ M ∧
        0 ≤ rd (worker_complete k.sched cmd).next_seq_to_run
          (worker_complete k.sched cmd).active_priority ∧
        rd (worker_complete k.sched cmd).next_seq_to_run
          (worker_complete k.sched cmd).active_priority <
            rd count (worker_complete k.sched cmd).active_priority ∧
        (∀ p, (worker_complete k.sched cmd).active_priority < p → p ≤ M →
          rd (worker_complete k.sched cmd).next_seq_to_run p = 0) ∧
        ∀ (j : Nat) (c : command_t), cmds[j]? = some c →
          (j ∈ k.ran ++ [i] ↔ c.priority < (worker_complete k.sched cmd).active_priority ∨
            (c.priority = (worker_complete k.sched cmd).active_priority ∧
              c.seq < rd (worker_complete k.sched cmd).next_seq_to_run
                (worker_complete k.sched cmd).active_priority))
      rw [hact2, hact, worker_complete_next, hrd_a]
      refine ⟨ha0, haM, by omega, by omega, ?_, ?_⟩
      · intro p hp _
        exact hrd_o p hp
      · intro j c hc
        exact hran j c hc

/-! ## Reachable states -/

theorem reachable_inv (tmp : List command_t) (hne : tmp ≠ [])
    (h : ∀ c ∈ tmp, 0 ≤ c.priority) (k : config) (hk : reachable tmp k) :
    sched_inv (main_commands tmp) (main_sched tmp).count_for_prio (main_max_priority tmp)
      k := by
  unfold reachable at hk
  induction hk with
  | refl => exact main_config_inv tmp hne h
  | @tail b c _ hstep ih =>
    cases hstep with
    | run i cmd mem hcmd hnew hturn =>
      exact sched_inv_step (main_well_assigned tmp h) b ih i cmd mem hcmd hnew hturn

theorem reachable_nil (k : config) (hk : reachable [] k) : k = main_config [] := by
  unfold reachable at hk
  induction hk with
  | refl => rfl
  | @tail b c _ hstep _ =>
    cases hstep with
    | run i cmd mem hcmd hnew hturn => simp [main_commands, main_assign_seq] at hcmd

/-- In a state of the invariant, a worker that has not run and whose wait loop lets it
through holds the command that comes first among those that have not run. -/
theorem eligible_is_least {cmds : List command_t} {count : List Int} {M : Int}
    (W : well_assigned cmds count M) (k : config) (hinv : sched_inv cmds count M k)
    (i : Nat) (a : command_t) (ha : cmds[i]? = some a) (hi : i ∉ k.ran)
    (hturn : worker_must_wait k.sched a = false)
    (j : Nat) (b : command_t) (hb : cmds[j]? = some b) (hj : j ∉ k.ran) (hne : j ≠ i) :
    runs_before a b := by
  obtain ⟨hact, hseq⟩ := (worker_must_wait_false _ _).mp hturn
  rcases hinv.progress with ⟨_, hall⟩ | ⟨_, _, _, _, _, hiff⟩
  · exact absurd (hall i a ha) hi
  rw [hact, hseq] at hiff
  have hnb := (not_congr (hiff j b hb)).mp hj
  push_neg at hnb
  unfold runs_before
  rcases lt_or_eq_of_le hnb.1 with h | h
  · exact Or.inl h
  · refine Or.inr ⟨h, ?_⟩
    have h2 := hnb.2 h.symm
    rcases lt_or_eq_of_le h2 with h3 | h3
    · exact h3
    · exact absurd (well_assigned_unique W j i b a hb ha h.symm h3.symm) hne

/-- C2. In every state reachable from the one `main` builds (non-negative priorities,
`seq` assigned by `main`), at most one worker that has not yet run passes the wait
predicate `active_priority == priority && next_seq_to_run[priority] == seq`, and a worker
that does holds the command with the smallest (priority, seq) among the commands that
have not yet run: it comes strictly before every other one of them. -/
theorem at_most_one_eligible (tmp : List command_t) (hprio : ∀ c ∈ tmp, 0 ≤ c.priority)
    (k : config) (hk : reachable tmp k) :
    (∀ (i j : Nat) (a b : command_t), (main_commands tmp)[i]? = some a →
        (main_commands tmp)[j]? = some b → i ∉ k.ran → j ∉ k.ran →
        worker_must_wait k.sched a = false → worker_must_wait k.sched b = false → i = j) ∧
      (∀ (i : Nat) (a : command_t), (main_commands tmp)[i]? = some a → i ∉ k.ran →
        worker_must_wait k.sched a = false →
        ∀ (j : Nat) (b : command_t), (main_commands tmp)[j]? = some b → j ∉ k.ran → j ≠ i →
          runs_before a b) := by
  by_cases hne : tmp = []
  · subst hne
    constructor
    · intro i j a b ha; simp [main_commands, main_assign_seq] at ha
    · intro i a ha; simp [main_commands, main_assign_seq] at ha
  have W := main_well_assigned tmp hprio
  have hinv := reachable_inv tmp hne hprio k hk
  constructor
  · intro i j a b ha hb hi hj hta htb
    obtain ⟨ha1, ha2⟩ := (worker_must_wait_false _ _).mp hta
    obtain ⟨hb1, hb2⟩ := (worker_must_wait_false _ _).mp htb
    have hp : a.priority = b.priority := by rw [← ha1, ← hb1]
    refine well_assigned_unique W i j a b ha hb hp ?_
    rw [← ha2, ← hb2, hp]
  · intro i a ha hi hta j b hb hj hji
    exact eligible_is_least W k hinv i a ha hi hta j b hb hj hji

/-! ## Complete executions -/

/-- In a state of the invariant from which no step is possible, every worker has run and
`active_priority` is -1. -/
theorem stuck_all_ran {cmds : List command_t} {count : List Int} {M : Int}
    (W : well_assigned cmds count M) (k : config) (hinv : sched_inv cmds count M k)
    (hstuck : ∀ k2, ¬ step cmds k k2) :
    k.sched.active_priority = -1 ∧
      ∀ (i : Nat) (c : command_t), cmds[i]? = some c → i ∈ k.ran := by
  rcases hinv.progress with hdone | ⟨ha0, haM, hs0, hslt, _, hiff⟩
  · exact hdone
  exfalso
  obtain ⟨i, c, hc, hcp, hcs⟩ := well_assigned_surj W k.sched.active_priority
    (rd k.sched.next_seq_to_run k.sched.active_priority) ha0 haM hs0 hslt
  have hi : i ∉ k.ran := by
    rw [hiff i c hc]
    omega
  have hturn : worker_must_wait k.sched c = false := by
    rw [worker_must_wait_false]
    exact ⟨hcp.symm, by rw [hcp, hcs]⟩
  exact hstuck _ (step.run k i c true hc hi hturn)

theorem ran_nodup {cmds : List command_t} {count : List Int} {M : Int} (k : config)
    (hinv : sched_inv cmds count M k) : k.ran.Nodup := by
  refine hinv.ran_sorted.imp ?_
  rintro i j ⟨a, b, ha, hb, hr⟩ heq
  subst heq
  rw [ha] at hb
  cases hb
  exact runs_before_irrefl a hr

theorem range_filterMap_getElem? {α : Type} (l : List α) :
    (List.range l.length).filterMap (fun i => l[i]?) = l := by
  induction l with
  | nil => rfl
  | cons a t ih =>
    rw [List.length_cons, List.range_succ_eq_map, List.filterMap_cons]
    simp only [List.getElem?_cons_zero, List.filterMap_map]
    congr 1
    have e : ((fun i => (a :: t)[i]?) ∘ Nat.succ) = fun i => t[i]? := by
      funext i
      simp
    rw [e, ih]

/-- The workers of a complete execution: each once, in the declared order. -/
theorem stuck_ran_order {cmds : List command_t} {count : List Int} {M : Int}
    (W : well_assigned cmds count M) (k : config) (hinv : sched_inv cmds count M k)
    (hstuck : ∀ k2, ¬ step cmds k k2) :
    k.ran.Perm (List.range cmds.length) ∧
      ∀ (i j : Nat) (a b : command_t), cmds[i]? = some a → cmds[j]? = some b →
        runs_before a b → k.ran.indexOf i < k.ran.indexOf j := by
  obtain ⟨_, hall⟩ := stuck_all_ran W k hinv hstuck
  have hnd := ran_nodup k hinv
  constructor
  · rw [List.perm_ext_iff_of_nodup hnd (List.nodup_range _)]
    intro i
    rw [List.mem_range]
    constructor
    · exact hinv.ran_valid i
    · intro hi
      exact hall i cmds[i] (List.getElem?_eq_getElem hi)
  · intro i j a b ha hb hab
    have hi := hall i a ha
    have hj := hall j b hb
    have hil := List.indexOf_lt_length.mpr hi
    have hjl := List.indexOf_lt_length.mpr hj
    by_contra hcon
    have hle : k.ran.indexOf j ≤ k.ran.indexOf i := by omega
    rcases lt_or_eq_of_le hle with hlt | heq
    · have hp := List.pairwise_iff_getElem.mp hinv.ran_sorted _ _ hjl hil hlt
      rw [List.getElem_indexOf hjl, List.getElem_indexOf hil] at hp
      obtain ⟨b2, a2, hb2, ha2, hr⟩ := hp
      rw [hb] at hb2; rw [ha] at ha2
      cases hb2; cases ha2
      exact runs_before_asymm a b hab hr
    · have hij : j = i := (List.indexOf_inj hj hi).mp heq
      subst hij
      rw [ha] at hb
      cases hb
      exact runs_before_irrefl a hab

/-! ## The stable sort by priority -/

theorem pair_sublist_indices {α : Type} (a b : α) (l : List α) (h : List.Sublist [a, b] l) :
    ∃ i j : Nat, i < j ∧ l[i]? = some a ∧ l[j]? = some b := by
  induction l with
  | nil => cases h
  | cons x t ih =>
    cases h with
    | cons _ h2 =>
      obtain ⟨i, j, hij, hi, hj⟩ := ih h2
      exact ⟨i + 1, j + 1, by omega, by simpa using hi, by simpa using hj⟩
    | cons₂ _ h2 =>
      have hb : b ∈ t := List.singleton_sublist.mp h2
      obtain ⟨j, hj⟩ := List.mem_iff_getElem?.mp hb
      exact ⟨0, j + 1, by omega, by simp, by simpa using hj⟩

theorem indices_pair_sublist {α : Type} (a b : α) (l : List α) :
    ∀ i j : Nat, i < j → l[i]? = some a → l[j]? = some b → List.Sublist [a, b] l := by
  induction l with
  | nil => intro i j _ hi; simp at hi
  | cons x t ih =>
    intro i j hij hi hj
    cases j with
    | zero => omega
    | succ j2 =>
      simp only [List.getElem?_cons_succ] at hj
      cases i with
      | zero =>
        simp only [List.getElem?_cons_zero, Option.some.injEq] at hi
        subst hi
        exact List.Sublist.cons₂ _ (List.singleton_sublist.mpr (List.getElem?_mem hj))
      | succ i2 =>
        simp only [List.getElem?_cons_succ] at hi
        exact List.Sublist.cons _ (ih i2 j2 (by omega) hi hj)

theorem well_assigned_nodup {cmds : List command_t} {count : List Int} {M : Int}
    (W : well_assigned cmds count M) : cmds.Nodup := by
  rw [List.nodup_iff_getElem?_ne_getElem?]
  intro i j hij hj heq
  have hjs : cmds[j]? = some cmds[j] := List.getElem?_eq_getElem hj
  have his : cmds[i]? = some cmds[j] := by rw [heq, hjs]
  have := well_assigned_unique W i j cmds[j] cmds[j] his hjs rfl rfl
  omega

theorem nodup_pair_sublist_asymm {α : Type} (a b : α) (l : List α) (hnd : l.Nodup)
    (h1 : List.Sublist [a, b] l) (h2 : List.Sublist [b, a] l) : False := by
  have hpw := hnd.sublist h1
  have hne : a ≠ b := by
    intro hab
    rw [hab] at hpw
    simp at hpw
  obtain ⟨i, j, hij, hi, hj⟩ := pair_sublist_indices a b l h1
  obtain ⟨i2, j2, hij2, hi2, hj2⟩ := pair_sublist_indices b a l h2
  rw [List.nodup_iff_getElem?_ne_getElem?] at hnd
  have hjlt : j < l.length := (List.getElem?_eq_some_iff.mp hj).1
  have hj2lt : j2 < l.length := (List.getElem?_eq_some_iff.mp hj2).1
  have e1 : i = j2 := by
    rcases Nat.lt_trichotomy i j2 with h | h | h
    · exact absurd (hi.trans hj2.symm) (hnd i j2 h hj2lt)
    · exact h
    · exact absurd (hj2.trans hi.symm) (hnd j2 i h (by omega))
  have e2 : j = i2 := by
    rcases Nat.lt_trichotomy j i2 with h | h | h
    · exact absurd (hj.trans hi2.symm) (hnd j i2 h (by omega))
    · exact h
    · exact absurd (hi2.trans hj.symm) (hnd i2 j h hjlt)
  omega

/-- Sorting the commands array stably by priority puts it in the declared order. -/
theorem mergeSort_runs_before {cmds : List command_t} {count : List Int} {M : Int}
    (W : well_assigned cmds count M) :
    (cmds.mergeSort (fun a b => decide (a.priority ≤ b.priority))).Pairwise runs_before := by
  have htrans : ∀ a b c : command_t, decide (a.priority ≤ b.priority) = true →
      decide (b.priority ≤ c.priority) = true → decide (a.priority ≤ c.priority) = true := by
    intro a b c h1 h2
    simp only [decide_eq_true_eq] at *
    omega
  have htotal : ∀ a b : command_t,
      (decide (a.priority ≤ b.priority) || decide (b.priority ≤ a.priority)) = true := by
    intro a b
    simp only [Bool.or_eq_true, decide_eq_true_eq]
    omega
  have hsorted := List.sorted_mergeSort htrans htotal cmds
  have hperm := List.mergeSort_perm cmds (fun a b => decide (a.priority ≤ b.priority))
  have hnd : cmds.Nodup := well_assigned_nodup W
  have hndM := hperm.nodup_iff.mpr hnd
  rw [List.pairwise_iff_forall_sublist]
  intro a b hab
  have hle : a.priority ≤ b.priority := by
    have := List.pairwise_iff_forall_sublist.mp hsorted hab
    simpa using this
  rcases lt_or_eq_of_le hle with hlt | heq
  · exact Or.inl hlt
  refine Or.inr ⟨heq, ?_⟩
  have hne : a ≠ b := by
    intro e
    have hpw := hndM.sublist hab
    rw [e] at hpw
    simp at hpw
  have ha : a ∈ cmds := hperm.subset (hab.subset (by simp))
  have hb : b ∈ cmds := hperm.subset (hab.subset (by simp))
  obtain ⟨i, hi⟩ := List.mem_iff_getElem?.mp ha
  obtain ⟨j, hj⟩ := List.mem_iff_getElem?.mp hb
  rcases Nat.lt_trichotomy i j with h | h | h
  · exact well_assigned_seq_strict W i j a b hi hj heq h
  · subst h
    rw [hi] at hj
    cases hj
    exact absurd rfl hne
  · exfalso
    have hsub : List.Sublist [b, a] cmds := indices_pair_sublist b a cmds j i h hj hi
    have hsubM := List.pair_sublist_mergeSort htrans htotal
      (by simp only [decide_eq_true_eq]; omega) hsub
    exact nodup_pair_sublist_asymm a b _ hndM hab hsubM

/-- The commands of a complete execution, in the order in which they ran, are the
commands array stably sorted by priority. -/
theorem stuck_ran_eq_mergeSort {cmds : List command_t} {count : List Int} {M : Int}
    (W : well_assigned cmds count M) (k : config) (hinv : sched_inv cmds count M k)
    (hstuck : ∀ k2, ¬ step cmds k k2) :
    k.ran.filterMap (fun i => cmds[i]?) =
      cmds.mergeSort (fun a b => decide (a.priority ≤ b.priority)) := by
  have hperm := (stuck_ran_order W k hinv hstuck).1
  have h1 : (k.ran.filterMap (fun i => cmds[i]?)).Perm cmds := by
    have := hperm.filterMap (fun i => cmds[i]?)
    rwa [range_filterMap_getElem?] at this
  have h2 := List.mergeSort_perm cmds (fun a b => decide (a.priority ≤ b.priority))
  have hs1 : (k.ran.filterMap (fun i => cmds[i]?)).Pairwise runs_before := by
    rw [List.pairwise_filterMap]
    refine hinv.ran_sorted.imp ?_
    rintro i j ⟨a, b, ha, hb, hr⟩ a2 ha2 b2 hb2
    rw [ha] at ha2; rw [hb] at hb2
    cases ha2; cases hb2
    exact hr
  haveI : IsAntisymm command_t runs_before :=
    ⟨fun a b h1 h2 => absurd h2 (runs_before_asymm a b h1)⟩
  exact List.eq_of_perm_of_sorted (h1.trans h2.symm) hs1 (mergeSort_runs_before W)

/-! ## The store of an execution -/

theorem run_sequential_append (l : List command_t) :
    ∀ (mems : List Bool) (head : List hashRecord) (cmd : command_t) (m : Bool),
      mems.length = l.length →
      run_sequential (l ++ [cmd]) (mems ++ [m]) head =
        (worker_exec cmd m (run_sequential l mems head)).2 := by
  induction l with
  | nil =>
    intro mems head cmd m hlen
    have : mems = [] := List.length_eq_zero.mp hlen
    subst this
    rfl
  | cons x t ih =>
    intro mems head cmd m hlen
    cases mems with
    | nil => simp at hlen
    | cons y ys =>
      simp only [List.length_cons, Nat.add_right_cancel_iff] at hlen
      simp only [List.cons_append, run_sequential, List.tail_cons, List.headD_cons]
      exact ih ys _ cmd m hlen

/-- The store of a reachable state is the one the single-threaded reference produces
from the commands that ran, in the order in which they ran. -/
theorem reachable_head (tmp : List command_t) (k : config) (hk : reachable tmp k) :
    ∃ mems : List Bool,
      mems.length = (k.ran.filterMap (fun i => (main_commands tmp)[i]?)).length ∧
      k.head = run_sequential (k.ran.filterMap (fun i => (main_commands tmp)[i]?)) mems
        ht_init := by
  unfold reachable at hk
  induction hk with
  | refl => exact ⟨[], rfl, rfl⟩
  | @tail b c _ hstep ih =>
    obtain ⟨mems, hlen, hhead⟩ := ih
    cases hstep with
    | run i cmd mem hcmd hnew hturn =>
      refine ⟨mems ++ [mem], ?_, ?_⟩
      · simp [worker_run, List.filterMap_append, hcmd, hlen]
      · have e : (worker_run b i cmd mem).ran.filterMap (fun i => (main_commands tmp)[i]?) =
            b.ran.filterMap (fun i => (main_commands tmp)[i]?) ++ [cmd] := by
          simp [worker_run, List.filterMap_append, hcmd]
        rw [e, run_sequential_append _ mems ht_init cmd mem hlen, ← hhead]
        rfl

/-! ## The scheduler: claims -/

/-- C1. For every command list with non-negative priorities, with `seq` assigned as
`main` does, every complete execution of the scheduler (a state reachable from the one
`main` builds, from which no step is possible) has run each command exactly once; a
command that comes before another in (priority, seq) ran strictly before it; the commands
in the order in which they ran are the commands array stably sorted by ascending
priority; and the store is the one the single-threaded reference produces from that
sorted array. -/
theorem total_order_serialization (tmp : List command_t)
    (hprio : ∀ c ∈ tmp, 0 ≤ c.priority) (k : config) (hk : reachable tmp k)
    (hdone : ∀ k2, ¬ step (main_commands tmp) k k2) :
    k.ran.Perm (List.range (main_commands tmp).length) ∧
      (∀ (i j : Nat) (a b : command_t), (main_commands tmp)[i]? = some a →
        (main_commands tmp)[j]? = some b → runs_before a b →
        k.ran.indexOf i < k.ran.indexOf j) ∧
      k.ran.filterMap (fun i => (main_commands tmp)[i]?) =
        (main_commands tmp).mergeSort (fun a b => decide (a.priority ≤ b.priority)) ∧
      ∃ mems : List Bool, mems.length = (main_commands tmp).length ∧
        k.head = run_sequential
          ((main_commands tmp).mergeSort (fun a b => decide (a.priority ≤ b.priority)))
          mems ht_init := by
  by_cases hne : tmp = []
  · subst hne
    have hk0 := reachable_nil k hk
    subst hk0
    refine ⟨by simp [main_config, main_commands, main_assign_seq], ?_, ?_, ?_⟩
    · intro i j a b ha; simp [main_commands, main_assign_seq] at ha
    · simp [main_config, main_commands, main_assign_seq]
    · exact ⟨[], by simp [main_commands, main_assign_seq],
        by simp [main_config, main_commands, main_assign_seq, run_sequential]⟩
  have W := main_well_assigned tmp hprio
  have hinv := reachable_inv tmp hne hprio k hk
  obtain ⟨h1, h2⟩ := stuck_ran_order W k hinv hdone
  have h3 := stuck_ran_eq_mergeSort W k hinv hdone
  obtain ⟨mems, hlen, hhead⟩ := reachable_head tmp k hk
  rw [h3] at hlen hhead
  refine ⟨h1, h2, h3, mems, ?_, hhead⟩
  rw [hlen, List.length_mergeSort]

theorem sample_reachable_1 : reachable sample_commands sample_run_1 :=
  Relation.ReflTransGen.tail Relation.ReflTransGen.refl
    (step.run _ 1 _ true (by decide) (by decide) (by decide))

theorem sample_reachable_2 : reachable sample_commands sample_run_2 :=
  Relation.ReflTransGen.tail sample_reachable_1
    (step.run _ 0 _ true (by decide) (by decide) (by decide))

theorem sample_reachable_3 : reachable sample_commands sample_run_3 :=
  Relation.ReflTransGen.tail sample_reachable_2
    (step.run _ 2 _ true (by decide) (by decide) (by decide))

theorem sample_done : ∀ k2, ¬ step (main_commands sample_commands) sample_run_3 k2 := by
  intro k2 h
  cases h with
  | run i cmd mem hcmd hnew hturn =>
    have hlt : i < 3 := (List.getElem?_eq_some_iff.mp hcmd).1
    have hran : sample_run_3.ran = [1, 0, 2] := by decide
    rw [hran] at hnew
    simp only [List.mem_cons, List.mem_singleton, List.not_mem_nil, or_false,
      not_or] at hnew
    omega

theorem total_order_serialization_witness :
    sample_run_3.ran = [1, 0, 2] ∧
      sample_run_3.ran.filterMap (fun i => (main_commands sample_commands)[i]?) =
        (main_commands sample_commands).mergeSort
          (fun a b => decide (a.priority ≤ b.priority)) :=
  ⟨by decide,
    (total_order_serialization sample_commands (by decide) sample_run_3 sample_reachable_3
      sample_done).2.2.1⟩

theorem at_most_one_eligible_witness :
    runs_before
      { type := .CMD_INSERT, name := [65], salary := 100, priority := 2, seq := 0,
        original_index := 0 }
      { type := .CMD_SEARCH, name := [65], salary := 0, priority := 2, seq := 1,
        original_index := 2 } :=
  (at_most_one_eligible sample_commands (by decide) sample_run_1 sample_reachable_1).2
    0 _ (by decide) (by decide) (by decide) 2 _ (by decide) (by decide) (by decide)

/-! ## The key of the empty name: claim -/

/-- C11. `jenkins_one_at_a_time_hash` of the empty string (no byte before the
terminator) is what the three statements after the loop make of 0, and that value
is 0; the reference of the specification gives the same. -/
theorem jenkins_hash_empty :
    jenkins_one_at_a_time_hash [] = jenkins_final 0 ∧
      jenkins_one_at_a_time_hash [0] = jenkins_final 0 ∧
      jenkins_final 0 = 0 ∧
      jenkins_one_at_a_time_hash [] = 0 ∧
      reference_hash [] = 0 := by
  decide

/-! ## The key is the sole identity: claim -/

theorem ht_update_names (name : List Nat) (v k : Nat) (tp : Int) (out : Option Nat)
    (s : List hashRecord) :
    (ht_update name v k tp out s).2.2.map (fun x => (x.hash, x.name)) =
      s.map (fun x => (x.hash, x.name)) := by
  have happ := find_prev_append k s
  unfold ht_update
  cases hc : (find_prev_by_hash k s).2 with
  | nil => simp
  | cons c t =>
    by_cases hk : c.hash = k
    · rw [hc] at happ
      simp only [hk, ne_eq, not_true_eq_false, if_false]
      conv_rhs => rw [← happ]
      simp [hk]
    · simp [hk]

/-- On a strictly ascending list `ht_update` with a resident key overwrites the salary of
the record with that key, whatever name and out-pointer it is given. -/
theorem ht_update_resident (s : List hashRecord) (name : List Nat) (v key : Nat)
    (tp : Int) (out : Option Nat) (r : hashRecord) (hs : StrictAsc s)
    (hr : r ∈ s) (hk : r.hash = key) :
    ht_update name v key tp out s =
      (0, out.map (fun _ => r.salary),
        s.map (fun x => if x.hash = key then { x with salary := v } else x)) := by
  have hc := find_prev_snd_present key s hs r hr hk
  have hsplit := strictAsc_split key s hs r hr hk
  unfold ht_update
  simp only [hc, hk, ne_eq, not_true_eq_false, if_false]
  rw [find_prev_fst_eq_filter key s hs]
  conv_rhs => rw [hsplit]
  rw [List.map_append, List.map_cons, filter_lt_map_id, filter_gt_map_id]
  simp [hk]

/-- C20. `ht_delete`, `ht_update` and `ht_search` do not look at their `name` argument:
for every store, key, salary, thread number, out-pointer and `malloc` outcome, two calls
that differ only in the name return the same code, the same out-cell (the same copy) and
the same store. `ht_update` never changes a stored key or name, and on a strictly
ascending store it overwrites the salary of the record with the given key whatever name is
passed, the stored one or another. -/
theorem key_is_sole_identity (s : List hashRecord) (key salary : Nat) (tp : Int)
    (out : Option Nat) (res : Bool) (n1 n2 : List Nat) :
    ht_delete n1 key tp out s = ht_delete n2 key tp out s ∧
      ht_update n1 salary key tp out s = ht_update n2 salary key tp out s ∧
      ht_search n1 key tp res s = ht_search n2 key tp res s ∧
      (ht_update n1 salary key tp out s).2.2.map (fun x => (x.hash, x.name)) =
        s.map (fun x => (x.hash, x.name)) ∧
      (StrictAsc s → ∀ r ∈ s, r.hash = key →
        ht_update n1 salary key tp out s =
          (0, out.map (fun _ => r.salary),
            s.map (fun x => if x.hash = key then { x with salary := salary } else x))) :=
  ⟨rfl, rfl, rfl, ht_update_names n1 salary key tp out s,
    fun hs r hr hk => ht_update_resident s n1 salary key tp out r hs hr hk⟩

theorem key_is_sole_identity_witness :
    ht_update [90, 90] 7 5 0 (some 0) [⟨5, [65], 100⟩, ⟨9, [67], 3⟩] =
      (0, some 100, [⟨5, [65], 7⟩, ⟨9, [67], 3⟩]) :=
  (key_is_sole_identity [⟨5, [65], 100⟩, ⟨9, [67], 3⟩] 5 7 0 (some 0) true [90, 90]
    [65]).2.2.2.2 (by decide) ⟨5, [65], 100⟩ (by decide) rfl

/-! ## What `main` builds: claims -/

theorem length_main_commands (tmp : List command_t) :
    (main_commands tmp).length = tmp.length := by
  have := congrArg List.length
    (main_assign_seq_priorities tmp (calloc (main_max_priority tmp + 1)))
  simpa [main_commands] using this

theorem main_commands_getElem (tmp : List command_t) (h : ∀ c ∈ tmp, 0 ≤ c.priority)
    (i : Nat) (c0 : command_t) (hc0 : tmp[i]? = some c0) :
    (main_commands tmp)[i]? =
      some { c0 with seq := (prio_count (tmp.take i) c0.priority : Int) } := by
  have hM := main_max_priority_nonneg tmp
  have hlen : ((calloc (main_max_priority tmp + 1)).length : Int) =
      main_max_priority tmp + 1 := length_calloc _ (by omega)
  have hr : ∀ c ∈ tmp, 0 ≤ c.priority ∧
      c.priority.toNat < (calloc (main_max_priority tmp + 1)).length := by
    intro c hc
    have h1 := h c hc
    have h2 := main_max_priority_ge tmp c hc
    exact ⟨h1, by omega⟩
  have hi : i < (main_commands tmp).length := by
    rw [length_main_commands]
    exact (List.getElem?_eq_some_iff.mp hc0).1
  have hget : (main_commands tmp)[i]? = some (main_commands tmp)[i] :=
    List.getElem?_eq_getElem hi
  obtain ⟨c1, h1, he⟩ := main_assign_seq_getElem tmp _ hr i _ hget
  rw [hc0] at h1
  cases h1
  rw [hget, he]
  simp [rd_calloc]

theorem main_count_eq (tmp : List command_t) (h : ∀ c ∈ tmp, 0 ≤ c.priority) (p : Int)
    (hp0 : 0 ≤ p) (hpM : p ≤ main_max_priority tmp) :
    rd (main_sched tmp).count_for_prio p = (prio_count tmp p : Int) := by
  have W := main_well_assigned tmp h
  rw [W.count_eq p hp0 hpM]
  congr 1
  exact prio_count_eq_of_priorities _ _
    (main_assign_seq_priorities tmp (calloc (main_max_priority tmp + 1))) p

/-- C16. For every command list with non-negative priorities, `main` gives the i-th
command as `seq` the number of commands before it that have its priority, changes nothing
else in it, and sets `count_for_prio[p]` to the number of commands of priority `p` for
every `p` of the array. So in each priority class the `seq` values are exactly
`0 .. count_for_prio[p] - 1`, ascending in input order, and no two commands share a
(priority, seq) pair. -/
theorem main_assigns_ranks (tmp : List command_t) (hprio : ∀ c ∈ tmp, 0 ≤ c.priority) :
    (main_commands tmp).length = tmp.length ∧
      (∀ (i : Nat) (c0 : command_t), tmp[i]? = some c0 →
        (main_commands tmp)[i]? =
          some { c0 with seq := (prio_count (tmp.take i) c0.priority : Int) }) ∧
      (∀ p, 0 ≤ p → p ≤ main_max_priority tmp →
        rd (main_sched tmp).count_for_prio p = (prio_count tmp p : Int)) ∧
      (∀ c ∈ tmp, c.priority ≤ main_max_priority tmp) ∧
      (∀ (i : Nat) (c : command_t), (main_commands tmp)[i]? = some c →
        0 ≤ c.seq ∧ c.seq < rd (main_sched tmp).count_for_prio c.priority) ∧
      (∀ p s : Int, 0 ≤ p → p ≤ main_max_priority tmp → 0 ≤ s →
        s < rd (main_sched tmp).count_for_prio p →
        ∃ (i : Nat) (c : command_t), (main_commands tmp)[i]? = some c ∧
          c.priority = p ∧ c.seq = s) ∧
      (∀ (i j : Nat) (a b : command_t), (main_commands tmp)[i]? = some a →
        (main_commands tmp)[j]? = some b → a.priority = b.priority → i < j →
        a.seq < b.seq) ∧
      (∀ (i j : Nat) (a b : command_t), (main_commands tmp)[i]? = some a →
        (main_commands tmp)[j]? = some b → a.priority = b.priority → a.seq = b.seq →
        i = j) := by
  have W := main_well_assigned tmp hprio
  exact ⟨length_main_commands tmp, main_commands_getElem tmp hprio,
    main_count_eq tmp hprio, main_max_priority_ge tmp,
    fun i c hc => well_assigned_seq_lt W i c hc,
    fun p s h1 h2 h3 h4 => well_assigned_surj W p s h1 h2 h3 h4,
    fun i j a b ha hb hp hij => well_assigned_seq_strict W i j a b ha hb hp hij,
    fun i j a b ha hb hp hs => well_assigned_unique W i j a b ha hb hp hs⟩

theorem main_assigns_ranks_witness :
    (main_commands sample_commands)[2]? =
      some { type := .CMD_SEARCH, name := [65], salary := 0, priority := 2, seq := 1,
             original_index := 2 } :=
  (main_assigns_ranks sample_commands (by decide)).2.1 2
    { type := .CMD_SEARCH, name := [65], salary := 0, priority := 2, seq := -1,
      original_index := 2 } (by decide)

theorem prio_count_pos_iff (l : List command_t) (p : Int) :
    0 < prio_count l p ↔ ∃ c ∈ l, c.priority = p := by
  unfold prio_count
  rw [List.countP_pos_iff]
  simp

/-- C18. For every non-empty command list with non-negative priorities, the state `main`
has built before any worker runs has `active_priority` equal to the smallest priority
that a command carries, `next_seq_to_run` all zeros (one entry per priority
`0 .. max_priority`), and no worker has run. -/
theorem main_initial_state (tmp : List command_t) (hne : tmp ≠ [])
    (hprio : ∀ c ∈ tmp, 0 ≤ c.priority) :
    (∃ c ∈ tmp, c.priority = (main_config tmp).sched.active_priority) ∧
      (∀ c ∈ tmp, (main_config tmp).sched.active_priority ≤ c.priority) ∧
      (main_config tmp).sched.next_seq_to_run =
        List.replicate (main_max_priority tmp + 1).toNat 0 ∧
      (∀ p, rd (main_config tmp).sched.next_seq_to_run p = 0) ∧
      (main_config tmp).ran = [] ∧ (main_config tmp).head = [] := by
  have hM := main_max_priority_nonneg tmp
  obtain ⟨c0, hc0⟩ := List.exists_mem_of_ne_nil tmp hne
  have hc0r : 0 ≤ c0.priority ∧ c0.priority ≤ main_max_priority tmp :=
    ⟨hprio c0 hc0, main_max_priority_ge tmp c0 hc0⟩
  have hpos : ∀ c ∈ tmp, 0 < rd (main_sched tmp).count_for_prio c.priority := by
    intro c hc
    rw [main_count_eq tmp hprio c.priority (hprio c hc) (main_max_priority_ge tmp c hc)]
    have := (prio_count_pos_iff tmp c.priority).mpr ⟨c, hc, rfl⟩
    omega
  obtain ⟨s1, s2, s3, s4⟩ := scan_prio_spec (main_sched tmp).count_for_prio
    (main_max_priority tmp) (main_max_priority tmp + 1).toNat 0 (by omega) (by omega)
  have hle : ∀ c ∈ tmp, scan_prio (main_sched tmp).count_for_prio (main_max_priority tmp)
      (main_max_priority tmp + 1).toNat 0 ≤ c.priority := by
    intro c hc
    by_contra hcon
    have := s4 c.priority (hprio c hc) (by omega)
    have := hpos c hc
    omega
  have hle0 := hle c0 hc0
  have hact : (main_config tmp).sched.active_priority =
      scan_prio (main_sched tmp).count_for_prio (main_max_priority tmp)
        (main_max_priority tmp + 1).toNat 0 :=
    main_start_p_eq_scan (main_sched tmp).count_for_prio (main_max_priority tmp) s1
      (by omega)
  refine ⟨?_, ?_, rfl, fun p => rd_calloc _ p, rfl, rfl⟩
  · rw [hact]
    have h3 := s3 (by omega)
    rw [main_count_eq tmp hprio _ s1 (by omega)] at h3
    have h4 : 0 < prio_count tmp (scan_prio (main_sched tmp).count_for_prio
        (main_max_priority tmp) (main_max_priority tmp + 1).toNat 0) := by omega
    exact (prio_count_pos_iff tmp _).mp h4
  · rw [hact]
    exact hle

theorem main_initial_state_witness :
    (main_config sample_commands).sched.active_priority = 0 ∧
      ∀ c ∈ sample_commands, (main_config sample_commands).sched.active_priority ≤
        c.priority :=
  ⟨by decide, (main_initial_state sample_commands (by decide) (by decide)).2.1⟩

/-! ## The completion update: claim -/

/-- C19. When the worker of a command of priority `p` (an index of the arrays,
`0 ≤ p ≤ max_priority`) makes its completion update in a state with
`active_priority == p`: `next_seq_to_run[p]` grows by exactly 1, every other entry of
`next_seq_to_run`, all of `count_for_prio` and `max_priority` are unchanged; when the new
value is below `count_for_prio[p]`, `active_priority` stays `p`; when it has reached
`count_for_prio[p]`, `active_priority` becomes the smallest `q` with
`p < q ≤ max_priority` and `count_for_prio[q] > 0`, or -1 when there is no such `q`. -/
theorem completion_update (s : sched_state) (cmd : command_t)
    (h0 : 0 ≤ cmd.priority) (hM : cmd.priority ≤ s.max_priority)
    (hlen : (s.next_seq_to_run.length : Int) = s.max_priority + 1)
    (hact : s.active_priority = cmd.priority) :
    rd (worker_complete s cmd).next_seq_to_run cmd.priority =
        rd s.next_seq_to_run cmd.priority + 1 ∧
      (∀ i : Nat, i ≠ cmd.priority.toNat →
        (worker_complete s cmd).next_seq_to_run[i]? = s.next_seq_to_run[i]?) ∧
      (worker_complete s cmd).next_seq_to_run.length = s.next_seq_to_run.length ∧
      (worker_complete s cmd).count_for_prio = s.count_for_prio ∧
      (worker_complete s cmd).max_priority = s.max_priority ∧
      (rd s.next_seq_to_run cmd.priority + 1 < rd s.count_for_prio cmd.priority →
        (worker_complete s cmd).active_priority = cmd.priority) ∧
      (rd s.count_for_prio cmd.priority ≤ rd s.next_seq_to_run cmd.priority + 1 →
        (∃ q, cmd.priority < q ∧ q ≤ s.max_priority ∧ 0 < rd s.count_for_prio q ∧
            (∀ q2, cmd.priority < q2 → q2 < q → rd s.count_for_prio q2 ≤ 0) ∧
            (worker_complete s cmd).active_priority = q) ∨
          ((∀ q, cmd.priority < q → q ≤ s.max_priority → rd s.count_for_prio q ≤ 0) ∧
            (worker_complete s cmd).active_priority = -1)) := by
  have hidx : cmd.priority.toNat < s.next_seq_to_run.length := by omega
  have hnew : rd (wr s.next_seq_to_run cmd.priority (rd s.next_seq_to_run cmd.priority + 1))
      cmd.priority = rd s.next_seq_to_run cmd.priority + 1 := rd_wr_same _ _ _ hidx
  refine ⟨?_, ?_, ?_, worker_complete_count s cmd, worker_complete_max s cmd, ?_, ?_⟩
  · rw [worker_complete_next]; exact hnew
  · intro i hi
    rw [worker_complete_next]
    unfold wr
    exact List.getElem?_set_ne (Ne.symm hi)
  · rw [worker_complete_next, length_wr]
  · intro hlt
    rw [worker_complete_active_stay s cmd (by rw [hnew]; omega), hact]
  · intro hge
    rw [worker_complete_active_scan s cmd (by rw [hnew]; omega)]
    obtain ⟨s1, s2, s3, s4⟩ := scan_prio_spec s.count_for_prio s.max_priority
      (s.max_priority - cmd.priority).toNat (cmd.priority + 1) (by omega) (by omega)
    by_cases hr : scan_prio s.count_for_prio s.max_priority
        (s.max_priority - cmd.priority).toNat (cmd.priority + 1) ≤ s.max_priority
    · left
      rw [if_pos hr]
      exact ⟨_, by omega, hr, s3 hr, fun q2 h1 h2 => s4 q2 (by omega) h2, rfl⟩
    · right
      rw [if_neg hr]
      exact ⟨fun q h1 h2 => s4 q (by omega) (by omega), rfl⟩

theorem completion_update_witness :
    (worker_complete sample_run_1.sched
      { type := .CMD_INSERT, name := [65], salary := 100, priority := 2, seq := 0,
        original_index := 0 }).active_priority = 2 :=
  (completion_update sample_run_1.sched
    { type := .CMD_INSERT, name := [65], salary := 100, priority := 2, seq := 0,
      original_index := 0 } (by decide) (by decide) (by decide) (by decide)).2.2.2.2.2.1
    (by decide)

/-! ## Monotone advancement: claim -/

/-- A step leaves `active_priority` where it is, moves it to a larger priority, or sets
it to -1; and it starts from a real priority. -/
theorem step_active {cmds : List command_t} {count : List Int} {M : Int}
    (W : well_assigned cmds count M) (k k2 : config) (hinv : sched_inv cmds count M k)
    (hstep : step cmds k k2) :
    0 ≤ k.sched.active_priority ∧
      (k2.sched.active_priority = k.sched.active_priority ∨
        k.sched.active_priority < k2.sched.active_priority ∨
        k2.sched.active_priority = -1) := by
  cases hstep with
  | run i cmd mem hcmd hnew hturn =>
    obtain ⟨hact, _⟩ := (worker_must_wait_false _ _).mp hturn
    obtain ⟨h0, hM⟩ := W.prio_range i cmd hcmd
    rw [← hinv.max_same] at hM
    refine ⟨by omega, ?_⟩
    show (worker_complete k.sched cmd).active_priority = _ ∨
      _ < (worker_complete k.sched cmd).active_priority ∨
      (worker_complete k.sched cmd).active_priority = -1
    by_cases hex : rd (wr k.sched.next_seq_to_run cmd.priority
        (rd k.sched.next_seq_to_run cmd.priority + 1)) cmd.priority ≥
        rd k.sched.count_for_prio cmd.priority
    · rw [worker_complete_active_scan k.sched cmd hex]
      obtain ⟨s1, _, _, _⟩ := scan_prio_spec k.sched.count_for_prio k.sched.max_priority
        (k.sched.max_priority - cmd.priority).toNat (cmd.priority + 1) (by omega) (by omega)
      by_cases hr : scan_prio k.sched.count_for_prio k.sched.max_priority
          (k.sched.max_priority - cmd.priority).toNat (cmd.priority + 1) ≤
          k.sched.max_priority
      · rw [if_pos hr]; right; left; omega
      · rw [if_neg hr]; right; right; rfl
    · rw [worker_complete_active_stay k.sched cmd hex]; left; rfl

theorem reachable_trans (tmp : List command_t) (k k2 : config) (hk : reachable tmp k)
    (hrun : Relation.ReflTransGen (step (main_commands tmp)) k k2) : reachable tmp k2 :=
  Relation.ReflTransGen.trans hk hrun

theorem no_step_nil (k k2 : config) : ¬ step (main_commands []) k k2 := by
  intro h
  cases h with
  | run i cmd mem hcmd hnew hturn => simp [main_commands, main_assign_seq] at hcmd

/-- C12. Along every execution from the state `main` builds (non-negative priorities,
`seq` assigned by `main`): a step is taken only while `active_priority` is a real
priority, and it leaves `active_priority` unchanged, moves it to a strictly larger
priority, or sets it to the done sentinel -1; over any number of steps it never gets
smaller unless it becomes -1; and once it is -1 no step is possible, so it stays -1. -/
theorem active_priority_monotone (tmp : List command_t)
    (hprio : ∀ c ∈ tmp, 0 ≤ c.priority) (k : config) (hk : reachable tmp k) :
    (∀ k2, step (main_commands tmp) k k2 →
        0 ≤ k.sched.active_priority ∧
          (k2.sched.active_priority = k.sched.active_priority ∨
            k.sched.active_priority < k2.sched.active_priority ∨
            k2.sched.active_priority = -1)) ∧
      (∀ k2, Relation.ReflTransGen (step (main_commands tmp)) k k2 →
        k.sched.active_priority ≤ k2.sched.active_priority ∨
          k2.sched.active_priority = -1) ∧
      (k.sched.active_priority = -1 →
        (∀ k2, ¬ step (main_commands tmp) k k2) ∧
          ∀ k2, Relation.ReflTransGen (step (main_commands tmp)) k k2 →
            k2.sched.active_priority = -1) := by
  by_cases hne : tmp = []
  · subst hne
    have hnil : ∀ k1 k2, Relation.ReflTransGen (step (main_commands [])) k1 k2 → k2 = k1 := by
      intro k1 k2 h
      induction h with
      | refl => rfl
      | tail _ hs _ => exact absurd hs (no_step_nil _ _)
    refine ⟨fun k2 h => absurd h (no_step_nil _ _), ?_, ?_⟩
    · intro k2 h
      rw [hnil k k2 h]; left; exact le_refl _
    · intro hd
      refine ⟨fun k2 => no_step_nil _ _, ?_⟩
      intro k2 h
      rw [hnil k k2 h]; exact hd
  have W := main_well_assigned tmp hprio
  have hone : ∀ k1 k2, reachable tmp k1 → step (main_commands tmp) k1 k2 →
      0 ≤ k1.sched.active_priority ∧
        (k2.sched.active_priority = k1.sched.active_priority ∨
          k1.sched.active_priority < k2.sched.active_priority ∨
          k2.sched.active_priority = -1) :=
    fun k1 k2 h1 hs => step_active W k1 k2 (reachable_inv tmp hne hprio k1 h1) hs
  have hmany : ∀ k2, Relation.ReflTransGen (step (main_commands tmp)) k k2 →
      reachable tmp k2 ∧ (k.sched.active_priority ≤ k2.sched.active_priority ∨
        k2.sched.active_priority = -1) := by
    intro k2 h
    induction h with
    | refl => exact ⟨hk, Or.inl (le_refl _)⟩
    | @tail b c hab hs ih =>
      obtain ⟨hb, hmon⟩ := ih
      refine ⟨Relation.ReflTransGen.tail hb hs, ?_⟩
      obtain ⟨hb0, hstep⟩ := hone b c hb hs
      rcases hstep with h | h | h
      · rcases hmon with h2 | h2
        · left; omega
        · omega
      · rcases hmon with h2 | h2
        · left; omega
        · omega
      · right; exact h
  have hstuck : k.sched.active_priority = -1 → ∀ k2, ¬ step (main_commands tmp) k k2 := by
    intro hd k2 hs
    have := (hone k k2 hk hs).1
    omega
  refine ⟨fun k2 hs => hone k k2 hk hs, fun k2 h => (hmany k2 h).2, ?_⟩
  intro hd
  refine ⟨hstuck hd, ?_⟩
  intro k2 h
  induction h with
  | refl => exact hd
  | @tail b c hab hs ih =>
    have hb : reachable tmp b := Relation.ReflTransGen.trans hk hab
    have := (hone b c hb hs).1
    omega

theorem active_priority_monotone_witness :
    sample_run_1.sched.active_priority ≤ sample_run_3.sched.active_priority ∨
      sample_run_3.sched.active_priority = -1 :=
  (active_priority_monotone sample_commands (by decide) sample_run_1 sample_reachable_1).2.1
    sample_run_3
    (Relation.ReflTransGen.tail
      (Relation.ReflTransGen.tail Relation.ReflTransGen.refl
        (step.run _ 0 _ true (by decide) (by decide) (by decide)))
      (step.run _ 2 _ true (by decide) (by decide) (by decide)))

/-! ## No starvation: claim -/

theorem run_steps_reachable (tmp : List command_t) (n : Nat) (k : config)
    (h : run_steps (main_commands tmp) n (main_config tmp) k) : reachable tmp k := by
  generalize hk0 : main_config tmp = k0 at h
  induction h with
  | zero k => subst hk0; exact Relation.ReflTransGen.refl
  | succ n k k1 k2 _ hstep ih => exact Relation.ReflTransGen.tail (ih hk0) hstep

theorem run_steps_length (cmds : List command_t) (n : Nat) (k0 k : config)
    (h : run_steps cmds n k0 k) : k.ran.length = k0.ran.length + n := by
  induction h with
  | zero k => rfl
  | succ n k k1 k2 _ hstep ih =>
    cases hstep with
    | run i cmd mem hcmd hnew hturn =>
      simp only [worker_run, List.length_append, List.length_singleton]
      omega

/-- A duplicate-free list of numbers below `n` that misses one of them is shorter than
`n`. -/
theorem length_lt_of_missing (l : List Nat) (n i : Nat) (hnd : l.Nodup)
    (hv : ∀ j ∈ l, j < n) (hi : i < n) (hmiss : i ∉ l) : l.length < n := by
  have hnd2 : (i :: l).Nodup := List.nodup_cons.mpr ⟨hmiss, hnd⟩
  have hsub : (i :: l) ⊆ List.range n := by
    intro j hj
    rw [List.mem_range]
    rcases List.mem_cons.mp hj with rfl | hj
    · exact hi
    · exact hv j hj
  have := (List.subperm_of_subset hnd2 hsub).length_le
  simp only [List.length_cons, List.length_range] at this
  omega

/-- In a state of the invariant in which a worker has not run, a worker that has not run
passes the wait predicate. -/
theorem pending_has_eligible {cmds : List command_t} {count : List Int} {M : Int}
    (W : well_assigned cmds count M) (k : config) (hinv : sched_inv cmds count M k)
    (hpend : ∃ i, i < cmds.length ∧ i ∉ k.ran) :
    ∃ (i : Nat) (cmd : command_t), cmds[i]? = some cmd ∧ i ∉ k.ran ∧
      worker_must_wait k.sched cmd = false := by
  rcases hinv.progress with ⟨_, hall⟩ | ⟨ha0, haM, hs0, hslt, _, hiff⟩
  · obtain ⟨i, hi, hni⟩ := hpend
    exact absurd (hall i cmds[i] (List.getElem?_eq_getElem hi)) hni
  obtain ⟨i, c, hc, hcp, hcs⟩ := well_assigned_surj W k.sched.active_priority
    (rd k.sched.next_seq_to_run k.sched.active_priority) ha0 haM hs0 hslt
  refine ⟨i, c, hc, ?_, ?_⟩
  · rw [hiff i c hc]; omega
  · rw [worker_must_wait_false]
    exact ⟨hcp.symm, by rw [hcp, hcs]⟩

/-- C13. For every non-empty command list with non-negative priorities (`seq` assigned
by `main`, contiguous from 0 per priority): in every reachable state in which some worker
has not run, a worker that has not run passes the wait predicate and can take its step (no
deadlock); each step completes exactly one command, one that had not run; an execution of
`n` steps has completed exactly `n` commands and `n` is at most `num_commands`; after
exactly `num_commands` steps every command has run and `active_priority` is -1; and an
execution of `num_commands` steps exists. -/
theorem no_starvation (tmp : List command_t) (hne : tmp ≠ [])
    (hprio : ∀ c ∈ tmp, 0 ≤ c.priority) :
    (∀ k, reachable tmp k → (∃ i, i < (main_commands tmp).length ∧ i ∉ k.ran) →
        ∃ (i : Nat) (cmd : command_t), (main_commands tmp)[i]? = some cmd ∧ i ∉ k.ran ∧
          worker_must_wait k.sched cmd = false ∧
          ∀ mem, step (main_commands tmp) k (worker_run k i cmd mem)) ∧
      (∀ k k2, step (main_commands tmp) k k2 →
        ∃ i, i < (main_commands tmp).length ∧ i ∉ k.ran ∧ k2.ran = k.ran ++ [i]) ∧
      (∀ n k, run_steps (main_commands tmp) n (main_config tmp) k →
        k.ran.length = n ∧ k.ran.Nodup ∧ n ≤ (main_commands tmp).length) ∧
      (∀ k, run_steps (main_commands tmp) (main_commands tmp).length (main_config tmp) k →
        (∀ i, i < (main_commands tmp).length → i ∈ k.ran) ∧
          k.sched.active_priority = -1) ∧
      ∃ k, run_steps (main_commands tmp) (main_commands tmp).length (main_config tmp) k := by
  have W := main_well_assigned tmp hprio
  have hinv : ∀ k, reachable tmp k → sched_inv (main_commands tmp)
      (main_sched tmp).count_for_prio (main_max_priority tmp) k :=
    fun k hk => reachable_inv tmp hne hprio k hk
  have hlive : ∀ k, reachable tmp k →
      (∃ i, i < (main_commands tmp).length ∧ i ∉ k.ran) →
      ∃ (i : Nat) (cmd : command_t), (main_commands tmp)[i]? = some cmd ∧ i ∉ k.ran ∧
        worker_must_wait k.sched cmd = false ∧
        ∀ mem, step (main_commands tmp) k (worker_run k i cmd mem) := by
    intro k hk hpend
    obtain ⟨i, cmd, hc, hni, hturn⟩ := pending_has_eligible W k (hinv k hk) hpend
    exact ⟨i, cmd, hc, hni, hturn, fun mem => step.run k i cmd mem hc hni hturn⟩
  have hcount : ∀ n k, run_steps (main_commands tmp) n (main_config tmp) k →
      k.ran.length = n ∧ k.ran.Nodup ∧ n ≤ (main_commands tmp).length := by
    intro n k h
    have hlen := run_steps_length _ n _ k h
    have hi := hinv k (run_steps_reachable tmp n k h)
    have hnd := ran_nodup k hi
    have hl : k.ran.length = n := by simpa [main_config] using hlen
    refine ⟨hl, hnd, ?_⟩
    have hsub : k.ran ⊆ List.range (main_commands tmp).length := by
      intro j hj
      rw [List.mem_range]
      exact hi.ran_valid j hj
    have := (List.subperm_of_subset hnd hsub).length_le
    simp only [List.length_range] at this
    omega
  refine ⟨hlive, ?_, hcount, ?_, ?_⟩
  · intro k k2 hstep
    cases hstep with
    | run i cmd mem hcmd hnew hturn =>
      exact ⟨i, (List.getElem?_eq_some_iff.mp hcmd).1, hnew, rfl⟩
  · intro k h
    have hi := hinv k (run_steps_reachable tmp _ k h)
    obtain ⟨hl, hnd, _⟩ := hcount _ k h
    rcases hi.progress with ⟨hdone, hall⟩ | ⟨ha0, haM, hs0, hslt, _, hiff⟩
    · exact ⟨fun i hlt => hall i _ (List.getElem?_eq_getElem hlt), hdone⟩
    · exfalso
      obtain ⟨i, c, hc, hni, _⟩ := pending_has_eligible W k hi (by
        obtain ⟨i, c, hc, hcp, hcs⟩ := well_assigned_surj W k.sched.active_priority
          (rd k.sched.next_seq_to_run k.sched.active_priority) ha0 haM hs0 hslt
        refine ⟨i, (List.getElem?_eq_some_iff.mp hc).1, ?_⟩
        rw [hiff i c hc]; omega)
      have := length_lt_of_missing k.ran _ i hnd hi.ran_valid
        (List.getElem?_eq_some_iff.mp hc).1 hni
      omega
  · have hex : ∀ n, n ≤ (main_commands tmp).length →
        ∃ k, run_steps (main_commands tmp) n (main_config tmp) k := by
      intro n
      induction n with
      | zero => intro _; exact ⟨_, run_steps.zero _⟩
      | succ m ih =>
        intro hm
        obtain ⟨k, hk⟩ := ih (by omega)
        obtain ⟨hl, hnd, _⟩ := hcount m k hk
        have hr := run_steps_reachable tmp m k hk
        have hpend : ∃ i, i < (main_commands tmp).length ∧ i ∉ k.ran := by
          by_contra hcon
          push_neg at hcon
          have hsub : List.range (main_commands tmp).length ⊆ k.ran := by
            intro j hj
            exact hcon j (List.mem_range.mp hj)
          have := (List.subperm_of_subset (List.nodup_range _) hsub).length_le
          simp only [List.length_range] at this
          omega
        obtain ⟨i, cmd, _, _, _, hstep⟩ := hlive k hr hpend
        exact ⟨_, run_steps.succ m _ k _ hk (hstep true)⟩
    exact hex _ (le_refl _)

theorem no_starvation_witness :
    ∃ k, run_steps (main_commands sample_commands) (main_commands sample_commands).length
      (main_config sample_commands) k :=
  (no_starvation sample_commands (by decide) (by decide)).2.2.2.2

/-! ## The round trip: claim -/

/-- C14, as stated, fails: when the `malloc` of the first insert returns `NULL`,
`ht_insert("A", 100, hash("A"))` on the empty store returns -1, the search then finds
nothing and the store at the end is empty. -/
theorem roundtrip_can_fail :
    ht_insert [65] 100 (jenkins_one_at_a_time_hash [65]) 0 false ht_init = (-1, []) ∧
      run_outputs (main_commands roundtrip_commands) [false, true, true, true] ht_init =
        ([.insert_failed (jenkins_one_at_a_time_hash [65]),
          .inserted (jenkins_one_at_a_time_hash [66]) [66] 200,
          .not_found [65],
          .deleted (jenkins_one_at_a_time_hash [66]) [66] 200], []) := by
  decide

/-- C14, amended. For the commands insert("A",100), insert("B",200), search("A") of
priority 0 and delete("B") of priority 1, `main` assigns the sequence numbers 0, 1, 2 and
0, and the declared total order is the order of the list. Run in that order from the empty
store, with the key `jenkins_one_at_a_time_hash(name)` and every `malloc` returning a
block: both inserts return 0, the search returns the record {hash("A"), "A", 100}, the
delete returns 0 with deleted salary 200, the workers print accordingly, and the store at
the end holds exactly the record {hash("A"), "A", 100}. -/
theorem roundtrip_example :
    (main_commands roundtrip_commands).map (fun c => (c.priority, c.seq)) =
        [(0, 0), (0, 1), (0, 2), (1, 0)] ∧
      (main_commands roundtrip_commands).mergeSort
          (fun a b => decide (a.priority ≤ b.priority)) = main_commands roundtrip_commands ∧
      ht_insert [65] 100 (jenkins_one_at_a_time_hash [65]) 0 true ht_init =
        (0, [⟨jenkins_one_at_a_time_hash [65], [65], 100⟩]) ∧
      ht_insert [66] 200 (jenkins_one_at_a_time_hash [66]) 0 true
          [⟨jenkins_one_at_a_time_hash [65], [65], 100⟩] =
        (0, [⟨jenkins_one_at_a_time_hash [65], [65], 100⟩,
             ⟨jenkins_one_at_a_time_hash [66], [66], 200⟩]) ∧
      ht_search [65] (jenkins_one_at_a_time_hash [65]) 0 true
          [⟨jenkins_one_at_a_time_hash [65], [65], 100⟩,
           ⟨jenkins_one_at_a_time_hash [66], [66], 200⟩] =
        (some ⟨jenkins_one_at_a_time_hash [65], [65], 100⟩,
          [⟨jenkins_one_at_a_time_hash [65], [65], 100⟩,
           ⟨jenkins_one_at_a_time_hash [66], [66], 200⟩]) ∧
      ht_delete [66] (jenkins_one_at_a_time_hash [66]) 1 (some 0)
          [⟨jenkins_one_at_a_time_hash [65], [65], 100⟩,
           ⟨jenkins_one_at_a_time_hash [66], [66], 200⟩] =
        (0, some 200, [⟨jenkins_one_at_a_time_hash [65], [65], 100⟩]) ∧
      run_outputs (main_commands roundtrip_commands) [true, true, true, true] ht_init =
        ([.inserted (jenkins_one_at_a_time_hash [65]) [65] 100,
          .inserted (jenkins_one_at_a_time_hash [66]) [66] 200,
          .found ⟨jenkins_one_at_a_time_hash [65], [65], 100⟩,
          .deleted (jenkins_one_at_a_time_hash [66]) [66] 200],
          [⟨jenkins_one_at_a_time_hash [65], [65], 100⟩]) := by
  refine ⟨by decide, ?_, by decide, by decide, by decide, by decide, by decide⟩
  apply List.mergeSort_of_sorted
  decide

/-! ## Duplicate rejection: claim -/

theorem ht_search_store (name : List Nat) (k : Nat) (tp : Int) (res : Bool)
    (s : List hashRecord) : (ht_search name k tp res s).2 = s := by
  unfold ht_search
  cases hc : (find_prev_by_hash k s).2 with
  | nil => simp
  | cons c t => by_cases hk : c.hash = k <;> simp [hk]

theorem ht_insert_ok_mem (name : List Nat) (salary k : Nat) (tp : Int) (node : Bool)
    (s : List hashRecord) (h : (ht_insert name salary k tp node s).1 = 0) :
    (⟨k, strncpy name 49, salary⟩ : hashRecord) ∈ (ht_insert name salary k tp node s).2 := by
  cases node with
  | false => rw [ht_insert_no_node] at h; simp at h
  | true =>
    by_cases hd : ∀ c t, (find_prev_by_hash k s).2 = c :: t → c.hash ≠ k
    · rw [ht_insert_splice name salary k tp s hd]
      simp
    · push_neg at hd
      obtain ⟨c, t, hc, hk⟩ := hd
      rw [ht_insert_dup name salary k tp true s c t hc hk] at h
      simp at h

theorem table_call_strictAsc (s : List hashRecord) (c : table_call) (hs : StrictAsc s) :
    StrictAsc (c.run s) := by
  cases c with
  | insert name salary k tp node => exact ht_insert_strictAsc name salary k tp node s hs
  | delete name k tp out => exact ht_delete_strictAsc name k tp out s hs
  | update name v k tp out => exact ht_update_strictAsc name v k tp out s hs
  | search name k tp res =>
    show StrictAsc (ht_search name k tp res s).2
    rw [ht_search_store]; exact hs

/-- A call with another key leaves a resident record where it is. -/
theorem table_call_keeps (s : List hashRecord) (c : table_call) (r : hashRecord)
    (hr : r ∈ s) (hne : c.key ≠ r.hash) : r ∈ c.run s := by
  cases c with
  | insert name salary k tp node =>
    show r ∈ (ht_insert name salary k tp node s).2
    cases node with
    | false => rw [ht_insert_no_node]; exact hr
    | true =>
      by_cases hd : ∀ c t, (find_prev_by_hash k s).2 = c :: t → c.hash ≠ k
      · rw [ht_insert_splice name salary k tp s hd]
        rw [← find_prev_append k s] at hr
        rcases List.mem_append.mp hr with h | h
        · exact List.mem_append_left _ h
        · exact List.mem_append_right _ (List.mem_cons_of_mem _ h)
      · push_neg at hd
        obtain ⟨c, t, hc, hk⟩ := hd
        rw [ht_insert_dup name salary k tp true s c t hc hk]; exact hr
  | delete name k tp out =>
    show r ∈ (ht_delete name k tp out s).2.2
    have hkey : k ≠ r.hash := hne
    cases hc : (find_prev_by_hash k s).2 with
    | nil => unfold ht_delete; simp [hc, hr]
    | cons c t =>
      by_cases hk : c.hash = k
      · rw [ht_delete_unlink name k tp out s c t hc hk]
        have happ := find_prev_append k s
        rw [hc] at happ
        rw [← happ] at hr
        rcases List.mem_append.mp hr with h | h
        · exact List.mem_append_left _ h
        · rcases List.mem_cons.mp h with h | h
          · rw [h] at hkey; exact absurd hk.symm hkey
          · exact List.mem_append_right _ h
      · unfold ht_delete; simp [hc, hk, hr]
  | update name v k tp out =>
    show r ∈ (ht_update name v k tp out s).2.2
    have hkey : k ≠ r.hash := hne
    cases hc : (find_prev_by_hash k s).2 with
    | nil => unfold ht_update; simp [hc, hr]
    | cons c t =>
      by_cases hk : c.hash = k
      · have happ := find_prev_append k s
        rw [hc] at happ
        rw [← happ] at hr
        unfold ht_update
        simp only [hc, hk, ne_eq, not_true_eq_false, if_false]
        rcases List.mem_append.mp hr with h | h
        · exact List.mem_append_left _ h
        · rcases List.mem_cons.mp h with h | h
          · rw [h] at hkey; exact absurd hk.symm hkey
          · exact List.mem_append_right _ (List.mem_cons_of_mem _ h)
      · unfold ht_update; simp [hc, hk, hr]
  | search name k tp res =>
    show r ∈ (ht_search name k tp res s).2
    rw [ht_search_store]; exact hr

theorem run_table_calls_keeps (calls : List table_call) (r : hashRecord) :
    ∀ s : List hashRecord, StrictAsc s → r ∈ s → (∀ c ∈ calls, c.key ≠ r.hash) →
      StrictAsc (run_table_calls s calls) ∧ r ∈ run_table_calls s calls := by
  induction calls with
  | nil => intro s hs hr _; exact ⟨hs, hr⟩
  | cons c cs ih =>
    intro s hs hr hk
    exact ih (c.run s) (table_call_strictAsc s c hs)
      (table_call_keeps s c r hr (hk c (List.mem_cons_self _ _)))
      (fun d hd => hk d (List.mem_cons_of_mem _ hd))

/-- C15. On a strictly ascending store, when `ht_insert(name, s1, hash(name))` has
returned 0 and any finite sequence of insert, delete, update and search calls on other
keys has followed, `ht_insert(name, s2, hash(name))` returns -1 and changes nothing, and
the record with key `hash(name)` is resident with salary `s1` (no other record carries
that key). For instance insert("A",100) then insert("A",300) leaves "A" with salary
100. -/
theorem duplicate_insert_rejected :
    (∀ (s : List hashRecord) (name : List Nat) (s1 s2 : Nat) (tp1 tp2 : Int)
        (node1 node2 : Bool) (calls : List table_call),
        StrictAsc s →
        (ht_insert name s1 (jenkins_one_at_a_time_hash name) tp1 node1 s).1 = 0 →
        (∀ c ∈ calls, c.key ≠ jenkins_one_at_a_time_hash name) →
        ht_insert name s2 (jenkins_one_at_a_time_hash name) tp2 node2
            (run_table_calls
              (ht_insert name s1 (jenkins_one_at_a_time_hash name) tp1 node1 s).2 calls) =
          (-1, run_table_calls
              (ht_insert name s1 (jenkins_one_at_a_time_hash name) tp1 node1 s).2 calls) ∧
        (⟨jenkins_one_at_a_time_hash name, strncpy name 49, s1⟩ : hashRecord) ∈
          run_table_calls
            (ht_insert name s1 (jenkins_one_at_a_time_hash name) tp1 node1 s).2 calls ∧
        ∀ r ∈ run_table_calls
            (ht_insert name s1 (jenkins_one_at_a_time_hash name) tp1 node1 s).2 calls,
          r.hash = jenkins_one_at_a_time_hash name → r.salary = s1) ∧
      ht_insert [65] 300 (jenkins_one_at_a_time_hash [65]) 0 true
          (ht_insert [65] 100 (jenkins_one_at_a_time_hash [65]) 0 true ht_init).2 =
        (-1, [⟨jenkins_one_at_a_time_hash [65], [65], 100⟩]) := by
  refine ⟨?_, by decide⟩
  intro s name s1 s2 tp1 tp2 node1 node2 calls hs hok hkeys
  have hmem := ht_insert_ok_mem name s1 _ tp1 node1 s hok
  have hs1 := ht_insert_strictAsc name s1 (jenkins_one_at_a_time_hash name) tp1 node1 s hs
  obtain ⟨hasc, hin⟩ := run_table_calls_keeps calls _ _ hs1 hmem hkeys
  refine ⟨?_, hin, ?_⟩
  · exact ht_insert_dup name s2 _ tp2 node2 _ _ _
      (find_prev_snd_present _ _ hasc _ hin rfl) rfl
  · intro r hr hk
    have hpw : (run_table_calls
        (ht_insert name s1 (jenkins_one_at_a_time_hash name) tp1 node1 s).2 calls).Pairwise
        (fun a b => a.hash ≠ b.hash) := by
      unfold StrictAsc at hasc
      exact hasc.imp (fun {a b} h => Nat.ne_of_lt h)
    by_contra hsal
    have hne : r ≠ (⟨jenkins_one_at_a_time_hash name, strncpy name 49, s1⟩ : hashRecord) := by
      intro e
      rw [e] at hsal
      exact hsal rfl
    exact hpw.forall (fun {a b} h => Ne.symm h) hr hin hne hk

theorem duplicate_insert_rejected_witness :
    ht_insert [65] 300 (jenkins_one_at_a_time_hash [65]) 0 true
        (run_table_calls
          (ht_insert [65] 100 (jenkins_one_at_a_time_hash [65]) 0 true ht_init).2
          [.insert [66] 200 (jenkins_one_at_a_time_hash [66]) 0 true,
           .delete [66] (jenkins_one_at_a_time_hash [66]) 0 (some 0)]) =
      (-1, run_table_calls
          (ht_insert [65] 100 (jenkins_one_at_a_time_hash [65]) 0 true ht_init).2
          [.insert [66] 200 (jenkins_one_at_a_time_hash [66]) 0 true,
           .delete [66] (jenkins_one_at_a_time_hash [66]) 0 (some 0)]) :=
  (duplicate_insert_rejected.1 ht_init [65] 100 300 0 0 true true
    [.insert [66] 200 (jenkins_one_at_a_time_hash [66]) 0 true,
     .delete [66] (jenkins_one_at_a_time_hash [66]) 0 (some 0)]
    (by decide) (by decide) (by decide)).1

/-! ## The priority of an accepted line -/

/-- The line `insert,A,100,-1` is accepted by `parse_line_to_command` (return code 0)
with `out->priority == -1`, whatever the record and the memory behind it held before;
`main` appends the command to `tmp_commands`, whose priority then indexes
`count_for_prio` and `next_seq_to_run`. -/
theorem accepted_line_negative_priority (name49 : List Nat) (out : command_t) :
    parse_line_to_command line_negative_priority true name49 out =
        (0, { type := .CMD_INSERT, name := [65], salary := 100, priority := -1, seq := -1,
              original_index := -1 }) ∧
      ¬ 0 ≤ (parse_line_to_command line_negative_priority true name49 out).2.priority ∧
      main_read [line_negative_priority ++ [10]] [name49] out [] =
        [{ type := .CMD_INSERT, name := [65], salary := 100, priority := -1, seq := -1,
           original_index := 0 }] := by
  have h : parse_line_to_command line_negative_priority true name49 out =
      (0, { type := .CMD_INSERT, name := [65], salary := 100, priority := -1, seq := -1,
            original_index := -1 }) := by
    rfl
  refine ⟨h, ?_, ?_⟩
  · rw [h]; decide
  · have ht : trim (cstr (line_negative_priority ++ [10])) = line_negative_priority := by
      decide
    simp only [main_read, ht, List.headD_cons, h]
    decide

/-- Numbers that do not fit an `int` come back from `atoi` cut to 32 bits:
`4294967297` as 1, `99999999999999999999` (clamped to `LONG_MAX`) as -1; and a name token
of 49 bytes is read back with whatever follows it in memory. -/
theorem parser_out_of_range :
    atoi digits_above_int = 1 ∧ atoi digits_above_long = -1 ∧
      atoi (45 :: digits_above_long) = 0 ∧
      parsed_name token_49_bytes [66, 67, 0, 68] = token_49_bytes ++ [66, 67] ∧
      parsed_name [65, 66] [66, 67, 0, 68] = [65, 66] := by
  decide

/-! ## The order of two insertions: claim -/

/-- Two strictly ascending lists with the same records are the same list. -/
theorem strictAsc_perm_eq (a b : List hashRecord) (ha : StrictAsc a) (hb : StrictAsc b)
    (hp : a.Perm b) : a = b := by
  haveI : IsAntisymm hashRecord (fun x y => x.hash < y.hash) :=
    ⟨fun x y h1 h2 => absurd h2 (Nat.lt_asymm h1)⟩
  exact List.eq_of_perm_of_sorted hp ha hb

/-- With a node from `malloc`, inserting an absent key returns 0 and gives a strictly
ascending list made of the new record and the old ones. -/
theorem ht_insert_absent_perm (name : List Nat) (salary k : Nat) (tp : Int)
    (s : List hashRecord) (hs : StrictAsc s) (hk : ∀ r ∈ s, r.hash ≠ k) :
    (ht_insert name salary k tp true s).1 = 0 ∧
      StrictAsc (ht_insert name salary k tp true s).2 ∧
      (ht_insert name salary k tp true s).2.Perm
        ((⟨k, strncpy name 49, salary⟩ : hashRecord) :: s) := by
  have hd : ∀ c t, (find_prev_by_hash k s).2 = c :: t → c.hash ≠ k :=
    fun c t h => hk c (find_prev_snd_head_mem k s c t h)
  refine ⟨?_, ht_insert_strictAsc name salary k tp true s hs, ?_⟩
  · rw [ht_insert_splice name salary k tp s hd]
  · rw [ht_insert_splice name salary k tp s hd]
    have h : ((find_prev_by_hash k s).1 ++
        (⟨k, strncpy name 49, salary⟩ : hashRecord) :: (find_prev_by_hash k s).2).Perm
        ((⟨k, strncpy name 49, salary⟩ : hashRecord) ::
          ((find_prev_by_hash k s).1 ++ (find_prev_by_hash k s).2)) := List.perm_middle
    rw [find_prev_append] at h
    exact h

/-- C21, as stated, fails: the store is strictly ascending and holds neither key 5 nor
key 7, yet the first of the four calls returns -1 when its `malloc` returns `NULL`
(lines 57-62). -/
theorem insert_order_call_can_fail :
    StrictAsc ([] : List hashRecord) ∧ (5 : Nat) ≠ 7 ∧
      (∀ r ∈ ([] : List hashRecord), r.hash ≠ 5) ∧
      (∀ r ∈ ([] : List hashRecord), r.hash ≠ 7) ∧
      ht_insert [65] 100 5 0 false [] = (-1, []) ∧
      (ht_insert [65] 100 5 0 false []).1 ≠ 0 := by
  decide

/-- C21, amended. On a strictly ascending store that holds neither of two distinct keys
`k1` and `k2`: when every `malloc` returns a node, `ht_insert(n1, s1, k1)` followed by
`ht_insert(n2, s2, k2)` and `ht_insert(n2, s2, k2)` followed by `ht_insert(n1, s1, k1)`
return 0 in all four calls and leave exactly the same store, the same records in the same
order. When a `malloc` fails and each of the two insertions meets the same `malloc`
outcome in both orders, the two stores are the same as well, a call returns 0 when its
`malloc` returned a node and -1 when it returned `NULL`; and a call whose `malloc` returns
`NULL` returns -1 and leaves the store as it found it, on every store. -/
theorem insert_order_irrelevant (s : List hashRecord) (n1 n2 : List Nat)
    (s1 s2 k1 k2 : Nat) (tp1 tp2 tp3 tp4 : Int) (hs : StrictAsc s) (hne : k1 ≠ k2)
    (h1 : ∀ r ∈ s, r.hash ≠ k1) (h2 : ∀ r ∈ s, r.hash ≠ k2) :
    (ht_insert n1 s1 k1 tp1 true s).1 = 0 ∧
      (ht_insert n2 s2 k2 tp2 true (ht_insert n1 s1 k1 tp1 true s).2).1 = 0 ∧
      (ht_insert n2 s2 k2 tp3 true s).1 = 0 ∧
      (ht_insert n1 s1 k1 tp4 true (ht_insert n2 s2 k2 tp3 true s).2).1 = 0 ∧
      (ht_insert n2 s2 k2 tp2 true (ht_insert n1 s1 k1 tp1 true s).2).2 =
        (ht_insert n1 s1 k1 tp4 true (ht_insert n2 s2 k2 tp3 true s).2).2 ∧
      (∀ m1 m2 : Bool,
        (ht_insert n1 s1 k1 tp1 m1 s).1 = (if m1 then (0 : Int) else -1) ∧
          (ht_insert n2 s2 k2 tp2 m2 (ht_insert n1 s1 k1 tp1 m1 s).2).1 =
            (if m2 then (0 : Int) else -1) ∧
          (ht_insert n2 s2 k2 tp3 m2 s).1 = (if m2 then (0 : Int) else -1) ∧
          (ht_insert n1 s1 k1 tp4 m1 (ht_insert n2 s2 k2 tp3 m2 s).2).1 =
            (if m1 then (0 : Int) else -1) ∧
          (ht_insert n2 s2 k2 tp2 m2 (ht_insert n1 s1 k1 tp1 m1 s).2).2 =
            (ht_insert n1 s1 k1 tp4 m1 (ht_insert n2 s2 k2 tp3 m2 s).2).2) ∧
      ∀ (name : List Nat) (salary key : Nat) (tp : Int) (head : List hashRecord),
        ht_insert name salary key tp false head = (-1, head) := by
  have hnull : ∀ (name : List Nat) (salary key : Nat) (tp : Int) (head : List hashRecord),
      ht_insert name salary key tp false head = (-1, head) := by
    intro name salary key tp head
    unfold ht_insert
    simp
  obtain ⟨ra, asca, pa⟩ := ht_insert_absent_perm n1 s1 k1 tp1 s hs h1
  obtain ⟨rc, ascc, pc⟩ := ht_insert_absent_perm n2 s2 k2 tp3 s hs h2
  have h2a : ∀ r ∈ (ht_insert n1 s1 k1 tp1 true s).2, r.hash ≠ k2 := by
    intro r hr
    rcases List.mem_cons.mp (pa.mem_iff.mp hr) with h | h
    · rw [h]; exact hne
    · exact h2 r h
  have h1c : ∀ r ∈ (ht_insert n2 s2 k2 tp3 true s).2, r.hash ≠ k1 := by
    intro r hr
    rcases List.mem_cons.mp (pc.mem_iff.mp hr) with h | h
    · rw [h]; exact Ne.symm hne
    · exact h1 r h
  obtain ⟨rb, ascb, pb⟩ := ht_insert_absent_perm n2 s2 k2 tp2 _ asca h2a
  obtain ⟨rd, ascd, pd⟩ := ht_insert_absent_perm n1 s1 k1 tp4 _ ascc h1c
  have hboth : (ht_insert n2 s2 k2 tp2 true (ht_insert n1 s1 k1 tp1 true s).2).2 =
      (ht_insert n1 s1 k1 tp4 true (ht_insert n2 s2 k2 tp3 true s).2).2 := by
    apply strictAsc_perm_eq _ _ ascb ascd
    refine pb.trans ((pa.cons _).trans ?_)
    refine (List.Perm.swap _ _ _).trans ?_
    exact ((pc.cons _).symm).trans pd.symm
  -- the store does not depend on the thread number
  have htp : ∀ (n : List Nat) (v k : Nat) (ta tb : Int) (m : Bool) (l : List hashRecord),
      (ht_insert n v k ta m l).2 = (ht_insert n v k tb m l).2 := fun _ _ _ _ _ _ _ => rfl
  refine ⟨ra, rb, rc, rd, hboth, ?_, hnull⟩
  intro m1 m2
  cases m1 with
  | false =>
    cases m2 with
    | false =>
      refine ⟨?_, ?_, ?_, ?_, ?_⟩ <;> simp [hnull]
    | true =>
      refine ⟨?_, ?_, rc, ?_, ?_⟩
      · rw [hnull]; rfl
      · rw [hnull]; exact (ht_insert_absent_perm n2 s2 k2 tp2 s hs h2).1
      · rw [hnull]; rfl
      · rw [hnull, hnull]; exact htp n2 s2 k2 tp2 tp3 true s
  | true =>
    cases m2 with
    | false =>
      refine ⟨ra, ?_, ?_, ?_, ?_⟩
      · rw [hnull]; rfl
      · rw [hnull]; rfl
      · rw [hnull]; exact (ht_insert_absent_perm n1 s1 k1 tp4 s hs h1).1
      · rw [hnull, hnull]; exact htp n1 s1 k1 tp1 tp4 true s
    | true => exact ⟨ra, rb, rc, rd, hboth⟩

theorem insert_order_irrelevant_witness :
    (ht_insert [66] 7 6 0 true
          (ht_insert [68] 9 12 0 true [⟨5, [65], 100⟩, ⟨9, [67], 3⟩]).2).2 =
        (ht_insert [68] 9 12 0 true
          (ht_insert [66] 7 6 0 true [⟨5, [65], 100⟩, ⟨9, [67], 3⟩]).2).2 ∧
      (ht_insert [66] 7 6 0 false
          (ht_insert [68] 9 12 0 true [⟨5, [65], 100⟩, ⟨9, [67], 3⟩]).2).1 = -1 ∧
      (ht_insert [68] 9 12 0 true
          (ht_insert [66] 7 6 0 false [⟨5, [65], 100⟩, ⟨9, [67], 3⟩]).2).1 = 0 :=
  ⟨(insert_order_irrelevant [⟨5, [65], 100⟩, ⟨9, [67], 3⟩] [68] [66] 9 7 12 6 0 0 0 0
      (by decide) (by decide) (by decide) (by decide)).2.2.2.2.1,
    ((insert_order_irrelevant [⟨5, [65], 100⟩, ⟨9, [67], 3⟩] [68] [66] 9 7 12 6 0 0 0 0
      (by decide) (by decide) (by decide) (by decide)).2.2.2.2.2.1 true false).2.1,
    ((insert_order_irrelevant [⟨5, [65], 100⟩, ⟨9, [67], 3⟩] [68] [66] 9 7 12 6 0 0 0 0
      (by decide) (by decide) (by decide) (by decide)).2.2.2.2.2.1 true false).2.2.2.1⟩

end CHash
